import Mathlib

/-!
# codex-test: the bounded worker pool and the bulk-create workflow

A shallow embedding of `internal/worker/pool.go` (`Pool.Run`) as a transition
system over explicit states, of `internal/service` (`BulkCreate`,
`validateCreate`) and of `internal/repository/memory` (`Repo`), followed by the
theorems proved about them.

Conventions of the embedding.

* A Go `error` is a value of `GoError`; the `nil` error is `none`.
* A Go function value that may have effects (the work function, the clock, the
  ID generator) is a state transformer over a world `W`.
* `Pool.Run` starts goroutines that communicate over two unbuffered channels.
  A goroutine is a program counter; a scheduler decision is an `Action`;
  `worker.Pool.step` fires one action and is `none` when the action is not
  enabled. A send and the matching receive on an unbuffered channel are one
  action. A `select` whose cases are both ready may fire either one.
* A call of the work function returns; its effect on the world and its return
  values are fixed when it returns, and do not depend on the context passed.
* The caller's context can be cancelled at any point of an execution, which
  cancels the derived context in the same action.
-/

/-! ## Go errors -/

/-- A Go error value: `errors.New(text)` or `fmt.Errorf("%w: %s", cause, message)`. -/
inductive GoError where
  | new (text : String)
  | wrapf (cause : GoError) (message : String)
deriving DecidableEq, Repr

namespace GoError

/-- The method `Error()`: the text of the error. -/
def Error : GoError → String
  | new text => text
  | wrapf cause message => cause.Error ++ ": " ++ message

/-- The function `errors.Is(e, target)`: `e` or an error it wraps equals `target`. -/
def Is : GoError → GoError → Bool
  | new text, target => decide (new text = target)
  | wrapf cause message, target => decide (wrapf cause message = target) || cause.Is target

end GoError

namespace context

/-- The error `context.Canceled`. -/
def Canceled : GoError := GoError.new "context canceled"

/-- The error `context.DeadlineExceeded`. -/
def DeadlineExceeded : GoError := GoError.new "context deadline exceeded"

end context

/-! ## internal/worker/pool.go -/

namespace worker

/-- The type `WorkFunc[I, O]`: from an input to an output and an error, with the
effects of the call on the world `W` it owns. -/
abbrev WorkFunc (W I O : Type) := W → I → (O × Option GoError) × W

/-- The struct `Pool[I, O]`. -/
structure Pool (W I O : Type) where
  Workers : Int
  Work : WorkFunc W I O

/-- The local type `job` of `Run`; the field `in` is spelled `inp`. -/
structure job (I : Type) where
  idx : Nat
  inp : I
deriving DecidableEq, Repr

/-- The local type `result` of `Run`. -/
structure result (O : Type) where
  idx : Nat
  out : O
  err : Option GoError
deriving DecidableEq, Repr

/-- Where a worker goroutine (pool.go lines 40-50) stands. -/
inductive WorkerPC (I O : Type) where
  /-- At `for j := range jobs`, waiting for a job or for the close of `jobs`. -/
  | ranging
  /-- Received `j`, `p.Work` not yet called. -/
  | holding (j : job I)
  /-- Inside `p.Work(ctx, j.in)`. -/
  | running (j : job I)
  /-- At the `select` with the outcome `r` to publish. -/
  | selecting (r : result O)
  /-- Returned; `wg.Done()` has run. -/
  | exited
deriving DecidableEq, Repr

/-- Whether the worker has returned. -/
def WorkerPC.isExited {I O : Type} : WorkerPC I O → Bool
  | WorkerPC.exited => true
  | _ => false

/-- Where the dispatcher goroutine (pool.go lines 53-67) stands. -/
inductive DispPC where
  /-- At iteration `i` of `for i, in := range inputs` (at the `select` when
  `i < len(inputs)`, past the loop otherwise). -/
  | feeding (i : Nat)
  /-- Took `<-ctx.Done()`, about to `close(jobs)`. -/
  | closing
  /-- After `close(jobs)`, at `wg.Wait()`. -/
  | waiting
  /-- After `wg.Wait()`, about to `close(results)`. -/
  | joined
  /-- After `close(results)`. -/
  | exited
deriving DecidableEq, Repr

/-- Where the goroutine that called `Run` (the collector, pool.go lines 69-84) stands. -/
inductive MainPC (O : Type) where
  /-- At `for res := range results`. -/
  | ranging
  /-- Received `r`, loop body not yet run. -/
  | handling (r : result O)
  /-- `Run` returned `(outs, err)`; `outs = none` is the nil slice. -/
  | returned (outs : Option (List O)) (err : Option GoError)
deriving DecidableEq, Repr

/-- The state of one execution of `Run`. The fields `calls` and `received` are
logs kept for the statements: the jobs on which `p.Work` was called and the
outcomes the collector received, oldest first. -/
structure State (W I O : Type) where
  workers : List (WorkerPC I O)
  disp : DispPC
  main : MainPC O
  jobsClosed : Bool
  resultsClosed : Bool
  /-- The value of `ctx.Err()` for the context derived by `context.WithCancel`. -/
  ctxErr : Option GoError
  /-- The value of `Err()` of the context the caller passed. -/
  parentErr : Option GoError
  outs : List O
  firstErr : Option GoError
  world : W
  calls : List (job I)
  received : List (result O)
deriving DecidableEq, Repr

/-- A scheduler decision. -/
inductive Action where
  /-- The dispatcher hands the next job to worker `w` over `jobs`. -/
  | recv (w : Nat)
  /-- Worker `w` calls `p.Work`. -/
  | call (w : Nat)
  /-- The call of `p.Work` in worker `w` returns. -/
  | ret (w : Nat)
  /-- Worker `w` hands its outcome to the collector over `results`. -/
  | send (w : Nat)
  /-- Worker `w` takes `<-ctx.Done()` in its `select` and returns. -/
  | abort (w : Nat)
  /-- Worker `w` leaves `range jobs` because `jobs` is closed. -/
  | leave (w : Nat)
  /-- The dispatcher takes `<-ctx.Done()` in its `select`. -/
  | dispDone
  /-- The dispatcher runs `close(jobs)`. -/
  | closeJobs
  /-- The dispatcher returns from `wg.Wait()`. -/
  | join
  /-- The dispatcher runs `close(results)`. -/
  | closeResults
  /-- The collector runs the loop body on the outcome it received. -/
  | handle
  /-- The collector leaves `range results` and `Run` returns. -/
  | finish
  /-- The caller's context is cancelled with error `e`. -/
  | parentCancel (e : GoError)
deriving DecidableEq, Repr

/-- The call `cancel()`: the first cancellation sets `ctx.Err()`, later ones are no-ops. -/
def cancel (ctxErr : Option GoError) : Option GoError :=
  match ctxErr with
  | some e => some e
  | none => some context.Canceled

namespace Pool

variable {W I O : Type}

/-- Lines 17-19: the number of workers `Run` starts. -/
def workerCount (p : Pool W I O) : Nat :=
  (if p.Workers < 1 then 1 else p.Workers).toNat

/-- The state when `Run` has started its goroutines: every worker is at
`range jobs`, the dispatcher at its first iteration, the collector at
`range results` with `outs := make([]O, len(inputs))` and `firstErr = nil`. -/
def init [Inhabited O] (p : Pool W I O) (w0 : W) (inputs : List I) : State W I O where
  workers := List.replicate p.workerCount WorkerPC.ranging
  disp := DispPC.feeding 0
  main := MainPC.ranging
  jobsClosed := false
  resultsClosed := false
  ctxErr := none
  parentErr := none
  outs := List.replicate inputs.length default
  firstErr := none
  world := w0
  calls := []
  received := []

/-- One step of `Run`: the state after action `a`, or `none` when `a` is not enabled. -/
def step (p : Pool W I O) (inputs : List I) (s : State W I O) : Action → Option (State W I O)
  | Action.recv w =>
    match s.disp, s.workers[w]?, s.jobsClosed with
    | DispPC.feeding i, some WorkerPC.ranging, false =>
      match inputs[i]? with
      | some x => some { s with
          workers := s.workers.set w (WorkerPC.holding ⟨i, x⟩)
          disp := DispPC.feeding (i + 1) }
      | none => none
    | _, _, _ => none
  | Action.call w =>
    match s.workers[w]? with
    | some (WorkerPC.holding j) => some { s with
        workers := s.workers.set w (WorkerPC.running j)
        calls := s.calls ++ [j] }
    | _ => none
  | Action.ret w =>
    match s.workers[w]? with
    | some (WorkerPC.running j) =>
      let r := p.Work s.world j.inp
      some { s with
        workers := s.workers.set w (WorkerPC.selecting ⟨j.idx, r.1.1, r.1.2⟩)
        world := r.2 }
    | _ => none
  | Action.send w =>
    match s.workers[w]?, s.main, s.resultsClosed with
    | some (WorkerPC.selecting r), MainPC.ranging, false => some { s with
        workers := s.workers.set w WorkerPC.ranging
        main := MainPC.handling r }
    | _, _, _ => none
  | Action.abort w =>
    match s.workers[w]?, s.ctxErr with
    | some (WorkerPC.selecting _), some _ => some { s with
        workers := s.workers.set w WorkerPC.exited }
    | _, _ => none
  | Action.leave w =>
    match s.workers[w]?, s.jobsClosed with
    | some WorkerPC.ranging, true => some { s with
        workers := s.workers.set w WorkerPC.exited }
    | _, _ => none
  | Action.dispDone =>
    match s.disp, s.ctxErr with
    | DispPC.feeding i, some _ =>
      if i < inputs.length then some { s with disp := DispPC.closing } else none
    | _, _ => none
  | Action.closeJobs =>
    match s.disp with
    | DispPC.feeding i =>
      if inputs.length ≤ i then some { s with disp := DispPC.waiting, jobsClosed := true }
      else none
    | DispPC.closing => some { s with disp := DispPC.waiting, jobsClosed := true }
    | _ => none
  | Action.join =>
    match s.disp with
    | DispPC.waiting =>
      if s.workers.all WorkerPC.isExited then
        some { s with disp := DispPC.joined }
      else none
    | _ => none
  | Action.closeResults =>
    match s.disp with
    | DispPC.joined => some { s with disp := DispPC.exited, resultsClosed := true }
    | _ => none
  | Action.handle =>
    match s.main with
    | MainPC.handling r =>
      if r.err.isSome && s.firstErr.isNone then
        some { s with
          main := MainPC.ranging
          firstErr := r.err
          ctxErr := cancel s.ctxErr
          outs := s.outs.set r.idx r.out
          received := s.received ++ [r] }
      else
        some { s with
          main := MainPC.ranging
          outs := s.outs.set r.idx r.out
          received := s.received ++ [r] }
    | _ => none
  | Action.finish =>
    match s.main, s.resultsClosed with
    | MainPC.ranging, true =>
      match s.firstErr, s.ctxErr with
      | some e, _ => some { s with main := MainPC.returned none (some e), ctxErr := cancel s.ctxErr }
      | none, some e => some { s with main := MainPC.returned none (some e), ctxErr := cancel s.ctxErr }
      | none, none => some { s with main := MainPC.returned (some s.outs) none, ctxErr := cancel s.ctxErr }
    | _, _ => none
  | Action.parentCancel e =>
    match s.parentErr with
    | none => some { s with
        parentErr := some e
        ctxErr := match s.ctxErr with
          | some e0 => some e0
          | none => some e }
    | some _ => none

/-- The state after the actions of `sched` fired in order from `s`, or `none`
when one of them is not enabled. -/
def runFrom (p : Pool W I O) (inputs : List I) : State W I O → List Action → Option (State W I O)
  | s, [] => some s
  | s, a :: sched =>
    match p.step inputs s a with
    | some t => runFrom p inputs t sched
    | none => none

/-- An execution of `Run(ctx, inputs)` under the schedule `sched`. -/
def Run [Inhabited O] (p : Pool W I O) (w0 : W) (inputs : List I) (sched : List Action) :
    Option (State W I O) :=
  runFrom p inputs (p.init w0 inputs) sched

end Pool

end worker

/-! ## internal/model/todo.go -/

namespace uuid

/-- The type `uuid.UUID`, a 128-bit identifier of which only equality is used. -/
abbrev UUID := Nat

end uuid

namespace time

/-- The type `time.Time`, an instant that is only stored and copied. -/
abbrev Time := Nat

end time

namespace model

/-- The type `Status`. -/
abbrev Status := String

/-- The constant `StatusPending`. -/
def StatusPending : Status := "pending"

/-- The constant `StatusDone`. -/
def StatusDone : Status := "done"

/-- The struct `Todo`; its `default` is the zero value `model.Todo{}`. -/
structure Todo where
  ID : uuid.UUID
  Title : String
  Description : String
  Status : Status
  CreatedAt : time.Time
  UpdatedAt : time.Time
deriving DecidableEq, Repr, Inhabited

end model

/-! ## internal/repository/memory/memory.go -/

namespace memory

/-- The struct `Repo`: the map `items` as the list of its key-value pairs, keys distinct. -/
structure Repo where
  items : List (uuid.UUID × model.Todo)
deriving DecidableEq, Repr

/-- The function `New`. -/
def New : Repo := { items := [] }

/-- The map read `items[id]` with its `ok` flag. -/
def lookup (items : List (uuid.UUID × model.Todo)) (id : uuid.UUID) : Option model.Todo :=
  match items with
  | [] => none
  | (k, v) :: rest => if k = id then some v else lookup rest id

/-- The map write `items[id] = todo`. -/
def store (items : List (uuid.UUID × model.Todo)) (id : uuid.UUID) (todo : model.Todo) :
    List (uuid.UUID × model.Todo) :=
  match items with
  | [] => [(id, todo)]
  | (k, v) :: rest => if k = id then (id, todo) :: rest else (k, v) :: store rest id todo

/-- The method `CreateBatch` (lines 32-44): the error returned and the repository
afterwards. `ErrConflict` is the error `repository.ErrConflict`. -/
def Repo.CreateBatch (ErrConflict : GoError) (r : Repo) (todos : List model.Todo) :
    Option GoError × Repo :=
  if todos.any (fun todo => (lookup r.items todo.ID).isSome) then
    (some ErrConflict, r)
  else
    (none, { items := todos.foldl (fun items todo => store items todo.ID todo) r.items })

/-- The method `Get` (lines 46-54). `ErrNotFound` is the error `repository.ErrNotFound`. -/
def Repo.Get (ErrNotFound : GoError) (r : Repo) (id : uuid.UUID) : model.Todo × Option GoError :=
  match lookup r.items id with
  | some todo => (todo, none)
  | none => (default, some ErrNotFound)

/-- The method `List` (lines 56-64): every stored todo; the filter is not read. -/
def Repo.List (r : Repo) : List model.Todo × Option GoError :=
  (r.items.map (fun kv => kv.2), none)

end memory

/-! ## internal/service -/

namespace service

/-- The variable `ErrValidation`. -/
def ErrValidation : GoError := GoError.new "validation error"

/-- The function `wrapValidation` (validation.go lines 46-48). -/
def wrapValidation (message : String) : GoError :=
  GoError.wrapf ErrValidation message

/-- The predicate `unicode.IsSpace` of the Go library. -/
def isSpace (c : Char) : Bool :=
  let n := c.toNat
  (9 ≤ n && n ≤ 13) || n = 32 || n = 133 || n = 160 || n = 5760 || (8192 ≤ n && n ≤ 8202) ||
    n = 8232 || n = 8233 || n = 8239 || n = 8287 || n = 12288

/-- The function `strings.TrimSpace` of the Go library. -/
def TrimSpace (s : String) : String :=
  String.mk ((s.data.dropWhile isSpace).reverse.dropWhile isSpace).reverse

/-- The struct `CreateTodoInput`. -/
structure CreateTodoInput where
  Title : String
  Description : String
deriving DecidableEq, Repr

/-- The function `validateTitle` (validation.go lines 19-27); `len` counts bytes. -/
def validateTitle (title : String) : Option GoError :=
  if TrimSpace title = "" then some (wrapValidation "title is required")
  else if title.utf8ByteSize > 200 then some (wrapValidation "title too long")
  else none

/-- The function `validateDescription` (validation.go lines 29-34). -/
def validateDescription (description : String) : Option GoError :=
  if description.utf8ByteSize > 2000 then some (wrapValidation "description too long")
  else none

/-- The function `validateCreate` (validation.go lines 10-17). -/
def validateCreate (input : CreateTodoInput) : Option GoError :=
  match validateTitle input.Title with
  | some err => some err
  | none =>
    match validateDescription input.Description with
    | some err => some err
    | none => none

/-- The struct `Service`. The repository behind the interface
`repository.TodoRepository` is its state `R` with the method `CreateBatch`; the
clock `now` and `idGenerator` act on the world `W`. -/
structure Service (W R : Type) where
  CreateBatch : R → List model.Todo → Option GoError × R
  workers : Int
  now : W → time.Time × W
  idGenerator : W → uuid.UUID × W

/-- The function literal `Work` of `BulkCreate` (todo_service.go lines 72-85). -/
def Service.bulkWork {W R : Type} (s : Service W R) :
    worker.WorkFunc W CreateTodoInput model.Todo :=
  fun w input =>
    match validateCreate input with
    | some err => ((default, some err), w)
    | none =>
      let t := s.now w
      let g := s.idGenerator t.2
      (({ ID := g.1
          Title := input.Title
          Description := input.Description
          Status := model.StatusPending
          CreatedAt := t.1
          UpdatedAt := t.1 }, none), g.2)

/-- The value `pool` of `BulkCreate` (todo_service.go lines 70-86). -/
def Service.pool {W R : Type} (s : Service W R) : worker.Pool W CreateTodoInput model.Todo where
  Workers := s.workers
  Work := s.bulkWork

/-- What a call of `BulkCreate` leaves behind: the values returned, the
repository and the world afterwards, and two logs kept for the statements: the
final state of `pool.Run` when it was called, and the arguments of the calls of
`CreateBatch`. -/
structure BulkCreateResult (W R : Type) where
  todos : Option (List model.Todo)
  err : Option GoError
  repo : R
  world : W
  poolRun : Option (worker.State W CreateTodoInput model.Todo)
  batches : List (List model.Todo)

/-- The method `BulkCreate` (todo_service.go lines 65-97) on the repository `repo`
and the world `w0`, the goroutines of `pool.Run` scheduled by `sched`. The value
is `none` when `sched` is not an execution of `pool.Run` up to its return. -/
def Service.BulkCreate {W R : Type} (s : Service W R) (repo : R) (w0 : W)
    (inputs : List CreateTodoInput) (sched : List worker.Action) :
    Option (BulkCreateResult W R) :=
  if inputs.length = 0 then
    some { todos := none, err := some (wrapValidation "items must not be empty"),
           repo := repo, world := w0, poolRun := none, batches := [] }
  else
    match s.pool.Run w0 inputs sched with
    | none => none
    | some st =>
      match st.main with
      | worker.MainPC.returned _ (some err) =>
        some { todos := none, err := some err, repo := repo, world := st.world,
               poolRun := some st, batches := [] }
      | worker.MainPC.returned todos none =>
        match s.CreateBatch repo (todos.getD []) with
        | (some err, repo1) =>
          some { todos := none, err := some err, repo := repo1, world := st.world,
                 poolRun := some st, batches := [todos.getD []] }
        | (none, repo1) =>
          some { todos := todos, err := none, repo := repo1, world := st.world,
                 poolRun := some st, batches := [todos.getD []] }
      | _ => none

end service

/-! ## Predicates on the states of `Run` -/

namespace worker

variable {W I O : Type}

/-- The index of the job a worker holds, runs or publishes. -/
def WorkerPC.idx? : WorkerPC I O → Option Nat
  | WorkerPC.holding j => some j.idx
  | WorkerPC.running j => some j.idx
  | WorkerPC.selecting r => some r.idx
  | _ => none

/-- Whether `Run` has returned. -/
def MainPC.isReturned : MainPC O → Bool
  | MainPC.returned _ _ => true
  | _ => false

/-- The error of the first error-carrying outcome of a log of outcomes. -/
def firstError (log : List (result O)) : Option GoError :=
  (log.filterMap (fun r => r.err)).head?

/-- Index `k` was handed out and its outcome has not yet been handled by the collector. -/
def InFlight (s : State W I O) (k : Nat) : Prop :=
  (∃ pc ∈ s.workers, pc.idx? = some k) ∨ (∃ r, s.main = MainPC.handling r ∧ r.idx = k)

/-- The outcome `r` carries what a call of the work function on `inputs[r.idx]`
may return, `Q x y` saying that `y` is a possible return value on input `x`. -/
def ResOk (inputs : List I) (Q : I → O × Option GoError → Prop) (r : result O) : Prop :=
  ∃ x, inputs[r.idx]? = some x ∧ Q x (r.out, r.err)

/-- Slot `k` of `outs` holds the output of an error-free call on `inputs[k]`. -/
def Written (inputs : List I) (Q : I → O × Option GoError → Prop) (outs : List O) (k : Nat) :
    Prop :=
  ∃ x o, inputs[k]? = some x ∧ outs[k]? = some o ∧ Q x (o, none)

/-- The invariant of `Run`. -/
structure Inv (p : Pool W I O) (inputs : List I) (Q : I → O × Option GoError → Prop)
    (s : State W I O) : Prop where
  outs_len : s.outs.length = inputs.length
  workers_len : s.workers.length = p.workerCount
  feed_le : ∀ i, s.disp = DispPC.feeding i → i ≤ inputs.length
  jobs_closed : s.jobsClosed = true ↔
    (s.disp = DispPC.waiting ∨ s.disp = DispPC.joined ∨ s.disp = DispPC.exited)
  results_closed : s.resultsClosed = true ↔ s.disp = DispPC.exited
  joined_all : (s.disp = DispPC.joined ∨ s.disp = DispPC.exited) →
    ∀ pc ∈ s.workers, pc = WorkerPC.exited
  returned_closed : s.main.isReturned = true → s.resultsClosed = true
  exited_why : WorkerPC.exited ∈ s.workers → s.jobsClosed = true ∨ s.ctxErr ≠ none
  closing_why : s.disp = DispPC.closing → s.ctxErr ≠ none
  first_cancel : s.firstErr ≠ none → s.ctxErr ≠ none
  ctx_parent : s.main.isReturned = false → s.firstErr = none → s.ctxErr = s.parentErr
  job_ok : ∀ pc ∈ s.workers, ∀ j, (pc = WorkerPC.holding j ∨ pc = WorkerPC.running j) →
    inputs[j.idx]? = some j.inp
  res_ok : ∀ r, WorkerPC.selecting r ∈ s.workers → ResOk inputs Q r
  main_ok : ∀ r, s.main = MainPC.handling r → ResOk inputs Q r
  recv_ok : ∀ r ∈ s.received, ResOk inputs Q r
  calls_ok : ∀ j ∈ s.calls, inputs[j.idx]? = some j.inp
  first_log : s.firstErr = firstError s.received
  cover : s.ctxErr = none → ∀ k, k < inputs.length → (∀ i, s.disp = DispPC.feeding i → k < i) →
    InFlight s k ∨ Written inputs Q s.outs k
  ret_ok : ∀ o e, s.main = MainPC.returned o e →
    (∃ e1, s.firstErr = some e1 ∧ o = none ∧ e = some e1) ∨
    (∃ e1, s.firstErr = none ∧ o = none ∧ e = some e1 ∧ s.parentErr = some e1) ∨
    (s.firstErr = none ∧ e = none ∧ o = some s.outs ∧
      ∀ k, k < inputs.length → Written inputs Q s.outs k)

/-- The states some schedule of `Run(ctx, inputs)` reaches. -/
def Reachable [Inhabited O] (p : Pool W I O) (w0 : W) (inputs : List I) (s : State W I O) : Prop :=
  ∃ sched, p.Run w0 inputs sched = some s

end worker

namespace worker

variable {W I O : Type}

/-- The number of outcomes the collector has taken from `results`. -/
def State.taken (s : State W I O) : Nat :=
  s.received.length +
    (match s.main with
      | MainPC.handling _ => 1
      | _ => 0)

/-- What the only worker of a pool with one worker is at, given the number of
outcomes the collector has taken. -/
def WorkerPC.seqOk (s : State W I O) : WorkerPC I O → Prop
  | WorkerPC.ranging =>
    s.calls.length = s.taken ∧ ∀ i, s.disp = DispPC.feeding i → i = s.taken
  | WorkerPC.holding j =>
    j.idx = s.taken ∧ s.calls.length = s.taken ∧ ∀ i, s.disp = DispPC.feeding i → i = s.taken + 1
  | WorkerPC.running j =>
    j.idx = s.taken ∧ s.calls.length = s.taken + 1 ∧
      ∀ i, s.disp = DispPC.feeding i → i = s.taken + 1
  | WorkerPC.selecting r =>
    r.idx = s.taken ∧ s.calls.length = s.taken + 1 ∧
      ∀ i, s.disp = DispPC.feeding i → i = s.taken + 1
  | WorkerPC.exited => s.taken ≤ s.calls.length

/-- The invariant of `Run` with one worker, for a work function that fails with
`e` on the input at index `k` and on no earlier input: jobs are called and their
outcomes collected in input order, and the first error is `e`. -/
structure SeqInv (k : Nat) (e : GoError) (s : State W I O) : Prop where
  one : ∃ pc, s.workers = [pc] ∧ pc.seqOk s
  calls_seq : s.calls.map (fun j => j.idx) = List.range s.calls.length
  main_seq : ∀ r, s.main = MainPC.handling r → r.idx = s.received.length
  first_none : s.firstErr = none → s.received.length ≤ k
  first_some : ∀ e1, s.firstErr = some e1 → e1 = e ∧ k < s.received.length

end worker

namespace worker

variable {W I O : Type}

/-- Whether the worker has received a job on which it has not yet called the
work function. -/
def WorkerPC.isHolding : WorkerPC I O → Bool
  | WorkerPC.holding _ => true
  | _ => false

/-- One for a worker that holds a job not yet called, zero otherwise. -/
def WorkerPC.pending (pc : WorkerPC I O) : Nat :=
  if pc.isHolding then 1 else 0

/-- The number of workers that hold a job on which the work function is not yet called. -/
def State.held (s : State W I O) : Nat :=
  (s.workers.map WorkerPC.pending).sum

end worker

/-! ## A measure that every step of `Run` decreases -/

namespace worker

variable {W I O : Type}

/-- The steps a worker can still take without receiving a job. -/
def WorkerPC.rank : WorkerPC I O → Nat
  | WorkerPC.holding _ => 5
  | WorkerPC.running _ => 4
  | WorkerPC.selecting _ => 3
  | WorkerPC.ranging => 1
  | WorkerPC.exited => 0

/-- The steps the dispatcher can still take, each job it hands out counted with
the steps the job causes; `n` is `len(inputs)`. -/
def DispPC.rank (n : Nat) : DispPC → Nat
  | DispPC.feeding i => 5 * (n - i) + 4
  | DispPC.closing => 3
  | DispPC.waiting => 2
  | DispPC.joined => 1
  | DispPC.exited => 0

/-- The steps the collector can still take without receiving an outcome. -/
def MainPC.rank : MainPC O → Nat
  | MainPC.handling _ => 2
  | MainPC.ranging => 1
  | MainPC.returned _ _ => 0

/-- The bound on the number of steps left from `s`. -/
def State.measure (inputs : List I) (s : State W I O) : Nat :=
  (s.workers.map WorkerPC.rank).sum + s.disp.rank inputs.length + s.main.rank +
    (if s.parentErr.isNone then 1 else 0)

end worker

/-! ## Statements about executions, and the scenarios of the specification -/

namespace worker

variable {W I O : Type}

/-- The number of steps no execution of `Run(ctx, inputs)` exceeds. -/
def Pool.stepBound (p : Pool W I O) (inputs : List I) : Nat :=
  p.workerCount + 5 * inputs.length + 6

/-- Some goroutine of `Run` can take a step in `s` that is not a cancellation
of the caller's context. -/
def CanStep (p : Pool W I O) (inputs : List I) (s : State W I O) : Prop :=
  ∃ a, (∀ e, a ≠ Action.parentCancel e) ∧ (p.step inputs s a).isSome = true

/-- From `s` the execution of `Run` can be continued, without a cancellation of
the caller's context, until `Run` has returned. -/
def Completes (p : Pool W I O) (inputs : List I) (s : State W I O) : Prop :=
  ∃ rest t, p.runFrom inputs s rest = some t ∧ t.main.isReturned = true ∧
    t.parentErr = s.parentErr

namespace scenario

/-- The upper-case form of a string. -/
def upper (s : String) : String := String.mk (s.data.map Char.toUpper)

/-- The work function that returns `(upper(x), nil)`. -/
def upperWork (x : String) : String × Option GoError := (upper x, none)

/-- The pool of `upperWork` with 2 workers. -/
def upperPool : Pool Unit String String where
  Workers := 2
  Work := fun w x => (upperWork x, w)

/-- The error of the work function that rejects the empty string. -/
def errEmpty : GoError := GoError.new "empty input"

/-- The work function that fails iff the input is empty. -/
def failWork (x : String) : String × Option GoError :=
  if x = "" then ("", some errEmpty) else (x, none)

/-- The pool of `failWork` with `n` workers. -/
def failPool (n : Int) : Pool Unit String String where
  Workers := n
  Work := fun w x => (failWork x, w)

/-- Two workers take `a` and `b`, the second finishes first and takes `c`. -/
def schedUpper : List Action :=
  [Action.recv 0, Action.recv 1, Action.call 1, Action.call 0, Action.ret 1, Action.ret 0,
   Action.send 1, Action.handle, Action.recv 1, Action.send 0, Action.handle, Action.call 1,
   Action.ret 1, Action.send 1, Action.handle, Action.closeJobs, Action.leave 0, Action.leave 1,
   Action.join, Action.closeResults, Action.finish]

/-- Two workers take the first two jobs; the failure of the second is collected
first and the dispatcher then takes its cancellation branch. -/
def schedFailFast : List Action :=
  [Action.recv 1, Action.recv 0, Action.call 0, Action.ret 0, Action.call 1, Action.ret 1,
   Action.send 0, Action.handle, Action.send 1, Action.handle, Action.dispDone, Action.closeJobs,
   Action.leave 0, Action.leave 1, Action.join, Action.closeResults, Action.finish]

/-- The caller's deadline passes before any job is handed out. -/
def schedDeadline : List Action :=
  [Action.parentCancel context.DeadlineExceeded, Action.dispDone, Action.closeJobs,
   Action.leave 0, Action.join, Action.closeResults, Action.finish]

/-- Two workers take the first two jobs; the success of the second is collected
before the failure of the first. -/
def schedTwoFailures : List Action :=
  [Action.recv 0, Action.recv 1, Action.call 0, Action.call 1, Action.ret 1, Action.ret 0,
   Action.send 1, Action.handle, Action.send 0, Action.handle, Action.dispDone, Action.closeJobs,
   Action.leave 0, Action.leave 1, Action.join, Action.closeResults, Action.finish]

/-- On an empty input: the caller cancels, then everything shuts down. -/
def schedEmptyCancelled : List Action :=
  [Action.parentCancel context.Canceled, Action.closeJobs, Action.leave 0, Action.join,
   Action.closeResults, Action.finish]

/-- On an empty input: everything shuts down. -/
def schedEmpty : List Action :=
  [Action.closeJobs, Action.leave 0, Action.join, Action.closeResults, Action.finish]

/-- One worker: the failure of the second job is handed to the collector, the
worker receives the third job before the collector cancels, and runs it. -/
def schedWasted : List Action :=
  [Action.recv 0, Action.call 0, Action.ret 0, Action.send 0, Action.handle, Action.recv 0,
   Action.call 0, Action.ret 0, Action.send 0, Action.recv 0, Action.handle, Action.call 0,
   Action.ret 0, Action.abort 0, Action.closeJobs, Action.join, Action.closeResults,
   Action.finish]

/-- One worker: each outcome is collected before the next job is handed out, and
the dispatcher takes its cancellation branch after the failure. -/
def schedSequential : List Action :=
  [Action.recv 0, Action.call 0, Action.ret 0, Action.send 0, Action.handle, Action.recv 0,
   Action.call 0, Action.ret 0, Action.send 0, Action.handle, Action.dispDone,
   Action.closeJobs, Action.leave 0, Action.join, Action.closeResults, Action.finish]

/-- Two workers take the first two jobs; the failure of the first is collected
and the collector cancels. -/
def schedCancelled : List Action :=
  [Action.recv 0, Action.recv 1, Action.call 0, Action.ret 0, Action.send 0, Action.handle]

/-- After `schedCancelled`: the second worker calls the work function on the job
it holds, publishes the outcome, receives the third job and calls the work
function on it. -/
def schedAfterCancel : List Action :=
  [Action.call 1, Action.ret 1, Action.send 1, Action.recv 1, Action.call 1]

/-- After `schedCancelled` and the dispatcher taking its cancellation branch: the
second worker runs the job it holds and takes the cancellation branch of its
select, and everything shuts down. -/
def schedShutdown : List Action :=
  [Action.call 1, Action.ret 1, Action.abort 1, Action.closeJobs, Action.leave 0, Action.join,
   Action.closeResults, Action.finish]

/-- The state in which `schedEmpty` leaves `Run` on the empty input. -/
def finalEmpty : State Unit String String where
  workers := [WorkerPC.exited]
  disp := DispPC.exited
  main := MainPC.returned (some []) none
  jobsClosed := true
  resultsClosed := true
  ctxErr := some context.Canceled
  parentErr := none
  outs := []
  firstErr := none
  world := ()
  calls := []
  received := []

end scenario

end worker

namespace service

namespace scenario

/-- The in-memory repository behind a service with 4 workers; the world is a
counter from which the clock and the ID generator draw their next value. -/
def memoryService : Service Nat memory.Repo where
  CreateBatch := memory.Repo.CreateBatch (GoError.new "conflict")
  workers := 4
  now := fun w => (w, w + 1)
  idGenerator := fun w => (w, w + 1)

/-- The items of `TestBulkCreate_AllOrNothing`. -/
def testItems : List CreateTodoInput :=
  [{ Title := "valid", Description := "ok" }, { Title := "", Description := "invalid" }]

/-- Two workers take the two items; the valid one is collected first. -/
def schedTest : List worker.Action :=
  [worker.Action.recv 0, worker.Action.recv 3, worker.Action.call 0, worker.Action.call 3,
   worker.Action.ret 3, worker.Action.ret 0, worker.Action.send 0, worker.Action.handle,
   worker.Action.send 3, worker.Action.handle, worker.Action.closeJobs, worker.Action.leave 0,
   worker.Action.leave 1, worker.Action.leave 2, worker.Action.leave 3, worker.Action.join,
   worker.Action.closeResults, worker.Action.finish]

end scenario

end service

/-! ## Counts over the states of `Run`, and scenarios of the in-memory repository -/

namespace worker

variable {W I O : Type}

/-- A call of the work function of `p` on the input `x` may return `y`: it
returns `y` in some world. -/
def Pool.MayReturn (p : Pool W I O) (x : I) (y : O × Option GoError) : Prop :=
  ∃ w, (p.Work w x).1 = y

/-- Whether the worker is inside a call of the work function. -/
def WorkerPC.isRunning : WorkerPC I O → Bool
  | WorkerPC.running _ => true
  | _ => false

/-- The number of calls of the work function in progress. -/
def State.inProgress (s : State W I O) : Nat :=
  s.workers.countP WorkerPC.isRunning

/-- One for a worker that holds the job of index `k` not yet called, zero otherwise. -/
def WorkerPC.holds (k : Nat) : WorkerPC I O → Nat
  | WorkerPC.holding j => if j.idx = k then 1 else 0
  | _ => 0

/-- The number of times index `k` was handed to a worker and then called or still
held: the calls of the work function on index `k` so far plus the workers that
hold the job of index `k`. -/
def State.issued (s : State W I O) (k : Nat) : Nat :=
  (s.calls.map (fun j => j.idx)).count k + (s.workers.map (WorkerPC.holds k)).sum

/-- The invariant of `Run` on the calls of the work function: an index is issued
at most once, exactly the indices below the position of the dispatcher are
issued while it feeds, and every index is issued once the dispatcher has left
its loop with no error recorded and the caller's context not cancelled. -/
structure CallInv (inputs : List I) (s : State W I O) : Prop where
  at_most : ∀ k, s.issued k ≤ 1
  below : ∀ i k, s.disp = DispPC.feeding i → k < i → s.issued k = 1
  above : ∀ i k, s.disp = DispPC.feeding i → i ≤ k → s.issued k = 0
  all : s.firstErr = none → s.parentErr = none → (∀ i, s.disp ≠ DispPC.feeding i) →
    ∀ k, k < inputs.length → s.issued k = 1

namespace scenario

/-- The state in which `schedUpper` leaves `Run` on a, b, c with the upper-case pool. -/
def finalUpper : State Unit String String where
  workers := [WorkerPC.exited, WorkerPC.exited]
  disp := DispPC.exited
  main := MainPC.returned (some ["A", "B", "C"]) none
  jobsClosed := true
  resultsClosed := true
  ctxErr := some context.Canceled
  parentErr := none
  outs := ["A", "B", "C"]
  firstErr := none
  world := ()
  calls := [⟨1, "b"⟩, ⟨0, "a"⟩, ⟨2, "c"⟩]
  received := [⟨1, "B", none⟩, ⟨0, "A", none⟩, ⟨2, "C", none⟩]

end scenario

end worker

namespace memory

/-- The method `Create` (lines 22-30): the error returned and the repository
afterwards. `ErrConflict` is the error `repository.ErrConflict`. -/
def Repo.Create (ErrConflict : GoError) (r : Repo) (todo : model.Todo) : Option GoError × Repo :=
  if (lookup r.items todo.ID).isSome then (some ErrConflict, r)
  else (none, { items := store r.items todo.ID todo })

namespace scenario

/-- A todo with ID 1. -/
def todoA : model.Todo :=
  { ID := 1, Title := "a", Description := "", Status := model.StatusPending,
    CreatedAt := 0, UpdatedAt := 0 }

/-- Another todo with ID 1. -/
def todoB : model.Todo :=
  { ID := 1, Title := "b", Description := "", Status := model.StatusPending,
    CreatedAt := 0, UpdatedAt := 0 }

/-- A todo with ID 2. -/
def todoC : model.Todo :=
  { ID := 2, Title := "c", Description := "", Status := model.StatusPending,
    CreatedAt := 0, UpdatedAt := 0 }

/-- The error `repository.ErrConflict`, declared outside the files at hand. -/
def errConflict : GoError := GoError.new "conflict"

/-- The error `repository.ErrNotFound`, declared outside the files at hand. -/
def errNotFound : GoError := GoError.new "not found"

end scenario

end memory

/-! # Theorems -/

namespace worker
namespace Pool
variable {W I O : Type}

theorem step_recv {p : Pool W I O} {inputs : List I} {s t : State W I O} {w : Nat}
    (h : p.step inputs s (Action.recv w) = some t) :
    ∃ i x, s.disp = DispPC.feeding i ∧ s.workers[w]? = some WorkerPC.ranging ∧
      s.jobsClosed = false ∧ inputs[i]? = some x ∧
      t = { s with workers := s.workers.set w (WorkerPC.holding ⟨i, x⟩), disp := DispPC.feeding (i + 1) } := by
  simp only [step] at h
  split at h
  · split at h
    · exact ⟨_, _, ‹_›, ‹_›, ‹_›, ‹_›, by simpa using h.symm⟩
    · simp at h
  · simp at h

theorem step_call {p : Pool W I O} {inputs : List I} {s t : State W I O} {w : Nat}
    (h : p.step inputs s (Action.call w) = some t) :
    ∃ j, s.workers[w]? = some (WorkerPC.holding j) ∧
      t = { s with workers := s.workers.set w (WorkerPC.running j), calls := s.calls ++ [j] } := by
  simp only [step] at h
  split at h
  · exact ⟨_, ‹_›, by simpa using h.symm⟩
  · simp at h

theorem step_ret {p : Pool W I O} {inputs : List I} {s t : State W I O} {w : Nat}
    (h : p.step inputs s (Action.ret w) = some t) :
    ∃ j, s.workers[w]? = some (WorkerPC.running j) ∧
      t = { s with
        workers := s.workers.set w
          (WorkerPC.selecting ⟨j.idx, (p.Work s.world j.inp).1.1, (p.Work s.world j.inp).1.2⟩)
        world := (p.Work s.world j.inp).2 } := by
  simp only [step] at h
  split at h
  · exact ⟨_, ‹_›, by simpa using h.symm⟩
  · simp at h

theorem step_send {p : Pool W I O} {inputs : List I} {s t : State W I O} {w : Nat}
    (h : p.step inputs s (Action.send w) = some t) :
    ∃ r, s.workers[w]? = some (WorkerPC.selecting r) ∧ s.main = MainPC.ranging ∧
      s.resultsClosed = false ∧
      t = { s with workers := s.workers.set w WorkerPC.ranging, main := MainPC.handling r } := by
  simp only [step] at h
  split at h
  · exact ⟨_, ‹_›, ‹_›, ‹_›, by simpa using h.symm⟩
  · simp at h

theorem step_abort {p : Pool W I O} {inputs : List I} {s t : State W I O} {w : Nat}
    (h : p.step inputs s (Action.abort w) = some t) :
    ∃ r e, s.workers[w]? = some (WorkerPC.selecting r) ∧ s.ctxErr = some e ∧
      t = { s with workers := s.workers.set w WorkerPC.exited } := by
  simp only [step] at h
  split at h
  · exact ⟨_, _, ‹_›, ‹_›, by simpa using h.symm⟩
  · simp at h

theorem step_leave {p : Pool W I O} {inputs : List I} {s t : State W I O} {w : Nat}
    (h : p.step inputs s (Action.leave w) = some t) :
    s.workers[w]? = some WorkerPC.ranging ∧ s.jobsClosed = true ∧
      t = { s with workers := s.workers.set w WorkerPC.exited } := by
  simp only [step] at h
  split at h
  · exact ⟨‹_›, ‹_›, by simpa using h.symm⟩
  · simp at h

theorem step_dispDone {p : Pool W I O} {inputs : List I} {s t : State W I O}
    (h : p.step inputs s Action.dispDone = some t) :
    ∃ i e, s.disp = DispPC.feeding i ∧ s.ctxErr = some e ∧ i < inputs.length ∧
      t = { s with disp := DispPC.closing } := by
  simp only [step] at h
  split at h
  · split at h
    · exact ⟨_, _, ‹_›, ‹_›, ‹_›, by simpa using h.symm⟩
    · simp at h
  · simp at h

theorem step_closeJobs {p : Pool W I O} {inputs : List I} {s t : State W I O}
    (h : p.step inputs s Action.closeJobs = some t) :
    ((∃ i, s.disp = DispPC.feeding i ∧ inputs.length ≤ i) ∨ s.disp = DispPC.closing) ∧
      t = { s with disp := DispPC.waiting, jobsClosed := true } := by
  simp only [step] at h
  split at h
  · split at h
    · exact ⟨Or.inl ⟨_, ‹_›, ‹_›⟩, by simpa using h.symm⟩
    · simp at h
  · exact ⟨Or.inr ‹_›, by simpa using h.symm⟩
  · simp at h

theorem step_join {p : Pool W I O} {inputs : List I} {s t : State W I O}
    (h : p.step inputs s Action.join = some t) :
    s.disp = DispPC.waiting ∧ (∀ pc ∈ s.workers, pc = WorkerPC.exited) ∧
      t = { s with disp := DispPC.joined } := by
  simp only [step] at h
  split at h
  · split at h
    · rename_i hall
      refine ⟨‹_›, ?_, by simpa using h.symm⟩
      intro pc hpc
      have := List.all_eq_true.1 hall pc hpc
      cases pc <;> simp_all [WorkerPC.isExited]
    · simp at h
  · simp at h

theorem step_closeResults {p : Pool W I O} {inputs : List I} {s t : State W I O}
    (h : p.step inputs s Action.closeResults = some t) :
    s.disp = DispPC.joined ∧ t = { s with disp := DispPC.exited, resultsClosed := true } := by
  simp only [step] at h
  split at h
  · exact ⟨‹_›, by simpa using h.symm⟩
  · simp at h

theorem step_handle {p : Pool W I O} {inputs : List I} {s t : State W I O}
    (h : p.step inputs s Action.handle = some t) :
    ∃ r, s.main = MainPC.handling r ∧
      ((r.err ≠ none ∧ s.firstErr = none ∧
        t = { s with main := MainPC.ranging, firstErr := r.err, ctxErr := cancel s.ctxErr,
                     outs := s.outs.set r.idx r.out, received := s.received ++ [r] }) ∨
       ((r.err = none ∨ s.firstErr ≠ none) ∧
        t = { s with main := MainPC.ranging, outs := s.outs.set r.idx r.out,
                     received := s.received ++ [r] })) := by
  simp only [step] at h
  split at h
  · rename_i r hr
    refine ⟨r, hr, ?_⟩
    split at h
    · rename_i hc
      left
      refine ⟨?_, ?_, by simpa using h.symm⟩
      · cases hr1 : r.err <;> simp_all
      · cases hr2 : s.firstErr <;> simp_all
    · rename_i hc
      right
      refine ⟨?_, by simpa using h.symm⟩
      cases hr1 : r.err <;> cases hr2 : s.firstErr <;> simp_all
  · simp at h

theorem step_finish {p : Pool W I O} {inputs : List I} {s t : State W I O}
    (h : p.step inputs s Action.finish = some t) :
    s.main = MainPC.ranging ∧ s.resultsClosed = true ∧
      ((∃ e, s.firstErr = some e ∧
          t = { s with main := MainPC.returned none (some e), ctxErr := cancel s.ctxErr }) ∨
       (∃ e, s.firstErr = none ∧ s.ctxErr = some e ∧
          t = { s with main := MainPC.returned none (some e), ctxErr := cancel s.ctxErr }) ∨
       (s.firstErr = none ∧ s.ctxErr = none ∧
          t = { s with main := MainPC.returned (some s.outs) none, ctxErr := cancel s.ctxErr })) := by
  simp only [step] at h
  split at h
  · refine ⟨‹_›, ‹_›, ?_⟩
    split at h
    · exact Or.inl ⟨_, ‹_›, by simpa using h.symm⟩
    · exact Or.inr (Or.inl ⟨_, ‹_›, ‹_›, by simpa using h.symm⟩)
    · exact Or.inr (Or.inr ⟨‹_›, ‹_›, by simpa using h.symm⟩)
  · simp at h

theorem step_parentCancel {p : Pool W I O} {inputs : List I} {s t : State W I O} {e : GoError}
    (h : p.step inputs s (Action.parentCancel e) = some t) :
    s.parentErr = none ∧
      t = { s with parentErr := some e,
                   ctxErr := match s.ctxErr with
                     | some e0 => some e0
                     | none => some e } := by
  simp only [step] at h
  split at h
  · exact ⟨‹_›, by simpa using h.symm⟩
  · simp at h

end Pool
end worker
namespace worker
namespace Pool
variable {W I O : Type}

theorem mem_set_cases {α : Type} {l : List α} {w : Nat} {a b : α} (h : b ∈ l.set w a) :
    b = a ∨ b ∈ l := by
  rcases List.mem_or_eq_of_mem_set h with h | h
  · exact Or.inr h
  · exact Or.inl h

theorem lt_of_get {α : Type} {l : List α} {w : Nat} {a : α} (h : l[w]? = some a) :
    w < l.length := by
  rcases Nat.lt_or_ge w l.length with h1 | h1
  · exact h1
  · rw [List.getElem?_eq_none h1] at h; cases h

theorem mem_of_get {α : Type} {l : List α} {w : Nat} {a : α} (h : l[w]? = some a) : a ∈ l := by
  have hw := lt_of_get h
  rw [List.getElem?_eq_getElem hw] at h
  cases h
  exact List.getElem_mem hw

theorem mem_set_self {α : Type} {l : List α} {w : Nat} {a old : α} (h : l[w]? = some old) :
    a ∈ l.set w a := by
  have hw := lt_of_get h
  exact List.mem_iff_getElem.2 ⟨w, by simpa using hw, by simp⟩

theorem mem_set_of_mem {α : Type} {l : List α} {w : Nat} {a old b : α} (h : l[w]? = some old)
    (hb : b ∈ l) : b = old ∨ b ∈ l.set w a := by
  obtain ⟨n, hn, rfl⟩ := List.mem_iff_getElem.1 hb
  by_cases hnw : w = n
  · subst hnw
    left
    rw [List.getElem?_eq_getElem hn] at h
    exact Option.some.inj h
  · right
    exact List.mem_iff_getElem.2 ⟨n, by simpa using hn, by simp [List.getElem_set, hnw]⟩

theorem inFlight_set {s : State W I O} {k w : Nat} {old new : WorkerPC I O} (t : State W I O)
    (hw : s.workers[w]? = some old) (htw : t.workers = s.workers.set w new) (htm : t.main = s.main)
    (hidx : old.idx? = some k → new.idx? = some k) (h : InFlight s k) : InFlight t k := by
  rcases h with ⟨pc, hpc, hk⟩ | ⟨r, hr, hk⟩
  · left
    rcases mem_set_of_mem (a := new) hw hpc with h1 | h1
    · subst h1
      exact ⟨new, by rw [htw]; exact mem_set_self hw, hidx hk⟩
    · exact ⟨pc, by rw [htw]; exact h1, hk⟩
  · right
    exact ⟨r, by rw [htm]; exact hr, hk⟩

theorem inv_recv {p : Pool W I O} {inputs : List I} {Q : I → O × Option GoError → Prop}
    {s t : State W I O} {w : Nat} (hi : Inv p inputs Q s)
    (h : p.step inputs s (Action.recv w) = some t) : Inv p inputs Q t := by
  obtain ⟨i, x, hd, hw, hj, hx, rfl⟩ := step_recv h
  obtain ⟨h1, h2, h3, h4, h5, h6, h7, h8, h9, h10, h11, h12, h13, h14, h15, h16, h17, h18, h19⟩ := hi
  have hil : i < inputs.length := lt_of_get hx
  constructor <;> try assumption
  all_goals dsimp only
  case workers_len => simpa using h2
  case feed_le =>
    intro i1 hi1
    cases hi1
    exact hil
  case jobs_closed => simp [hj]
  case results_closed =>
    rw [hd] at h5
    simpa using h5
  case joined_all => simp
  case exited_why =>
    intro hm
    rcases mem_set_cases hm with h0 | h0
    · cases h0
    · exact h8 h0
  case closing_why => simp
  case job_ok =>
    intro pc hpc j hjj
    rcases mem_set_cases hpc with h0 | h0
    · subst h0
      rcases hjj with hjj | hjj
      · cases hjj
        exact hx
      · cases hjj
    · exact h12 pc h0 j hjj
  case res_ok =>
    intro r hr
    rcases mem_set_cases hr with h0 | h0
    · cases h0
    · exact h13 r h0
  case cover =>
    intro hc k hk hfeed
    have hki : k < i + 1 := hfeed (i + 1) rfl
    rcases Nat.lt_succ_iff_lt_or_eq.1 hki with hlt | heq
    · rcases h18 hc k hk (fun i1 hi1 => by rw [hd] at hi1; cases hi1; exact hlt) with hf | hwr
      · left
        exact inFlight_set _ hw rfl rfl (fun h0 => by simp [WorkerPC.idx?] at h0) hf
      · exact Or.inr hwr
    · left
      left
      exact ⟨_, mem_set_self hw, by simp [WorkerPC.idx?, heq]⟩

theorem inv_call {p : Pool W I O} {inputs : List I} {Q : I → O × Option GoError → Prop}
    {s t : State W I O} {w : Nat} (hi : Inv p inputs Q s)
    (h : p.step inputs s (Action.call w) = some t) : Inv p inputs Q t := by
  obtain ⟨j, hw, rfl⟩ := step_call h
  obtain ⟨h1, h2, h3, h4, h5, h6, h7, h8, h9, h10, h11, h12, h13, h14, h15, h16, h17, h18, h19⟩ := hi
  have hjm := mem_of_get hw
  constructor <;> try assumption
  all_goals dsimp only
  case workers_len => simpa using h2
  case joined_all =>
    intro hdj pc hpc
    have := h6 hdj _ hjm
    cases this
  case exited_why =>
    intro hm
    rcases mem_set_cases hm with h0 | h0
    · cases h0
    · exact h8 h0
  case job_ok =>
    intro pc hpc j1 hjj
    rcases mem_set_cases hpc with h0 | h0
    · subst h0
      rcases hjj with hjj | hjj
      · cases hjj
      · cases hjj
        exact h12 _ hjm _ (Or.inl rfl)
    · exact h12 pc h0 j1 hjj
  case res_ok =>
    intro r hr
    rcases mem_set_cases hr with h0 | h0
    · cases h0
    · exact h13 r h0
  case calls_ok =>
    intro j1 hj1
    rcases List.mem_append.1 hj1 with h0 | h0
    · exact h16 j1 h0
    · rw [List.mem_singleton] at h0
      subst h0
      exact h12 _ hjm _ (Or.inl rfl)
  case cover =>
    intro hc k hk hfeed
    rcases h18 hc k hk hfeed with hf | hwr
    · left
      exact inFlight_set _ hw rfl rfl (fun h0 => by simpa [WorkerPC.idx?] using h0) hf
    · exact Or.inr hwr

theorem inv_ret {p : Pool W I O} {inputs : List I} {Q : I → O × Option GoError → Prop}
    (hQ : ∀ w x, Q x (p.Work w x).1)
    {s t : State W I O} {w : Nat} (hi : Inv p inputs Q s)
    (h : p.step inputs s (Action.ret w) = some t) : Inv p inputs Q t := by
  obtain ⟨j, hw, rfl⟩ := step_ret h
  obtain ⟨h1, h2, h3, h4, h5, h6, h7, h8, h9, h10, h11, h12, h13, h14, h15, h16, h17, h18, h19⟩ := hi
  have hjm := mem_of_get hw
  constructor <;> try assumption
  all_goals dsimp only
  case workers_len => simpa using h2
  case joined_all =>
    intro hdj pc hpc
    have := h6 hdj _ hjm
    cases this
  case exited_why =>
    intro hm
    rcases mem_set_cases hm with h0 | h0
    · cases h0
    · exact h8 h0
  case job_ok =>
    intro pc hpc j1 hjj
    rcases mem_set_cases hpc with h0 | h0
    · subst h0
      rcases hjj with hjj | hjj <;> cases hjj
    · exact h12 pc h0 j1 hjj
  case res_ok =>
    intro r hr
    rcases mem_set_cases hr with h0 | h0
    · cases h0
      exact ⟨j.inp, h12 _ hjm _ (Or.inr rfl), hQ _ _⟩
    · exact h13 r h0
  case cover =>
    intro hc k hk hfeed
    rcases h18 hc k hk hfeed with hf | hwr
    · left
      exact inFlight_set _ hw rfl rfl (fun h0 => by simpa [WorkerPC.idx?] using h0) hf
    · exact Or.inr hwr

theorem inv_send {p : Pool W I O} {inputs : List I} {Q : I → O × Option GoError → Prop}
    {s t : State W I O} {w : Nat} (hi : Inv p inputs Q s)
    (h : p.step inputs s (Action.send w) = some t) : Inv p inputs Q t := by
  obtain ⟨r, hw, hm, hrc, rfl⟩ := step_send h
  obtain ⟨h1, h2, h3, h4, h5, h6, h7, h8, h9, h10, h11, h12, h13, h14, h15, h16, h17, h18, h19⟩ := hi
  have hjm := mem_of_get hw
  constructor <;> try assumption
  all_goals dsimp only
  case workers_len => simpa using h2
  case joined_all =>
    intro hdj pc hpc
    have := h6 hdj _ hjm
    cases this
  case returned_closed => simp [MainPC.isReturned]
  case exited_why =>
    intro hm
    rcases mem_set_cases hm with h0 | h0
    · cases h0
    · exact h8 h0
  case ctx_parent =>
    intro _ hf
    exact h11 (by rw [hm]; rfl) hf
  case job_ok =>
    intro pc hpc j1 hjj
    rcases mem_set_cases hpc with h0 | h0
    · subst h0
      rcases hjj with hjj | hjj <;> cases hjj
    · exact h12 pc h0 j1 hjj
  case res_ok =>
    intro r1 hr
    rcases mem_set_cases hr with h0 | h0
    · cases h0
    · exact h13 r1 h0
  case main_ok =>
    intro r1 hr1
    cases hr1
    exact h13 _ hjm
  case cover =>
    intro hc k hk hfeed
    rcases h18 hc k hk hfeed with hf | hwr
    · left
      rcases hf with ⟨pc, hpc, hk1⟩ | ⟨r1, hr1, _⟩
      · rcases mem_set_of_mem (a := WorkerPC.ranging) hw hpc with h0 | h0
        · subst h0
          right
          exact ⟨r, rfl, by simpa [WorkerPC.idx?] using hk1⟩
        · left
          exact ⟨pc, h0, hk1⟩
      · rw [hm] at hr1
        cases hr1
    · exact Or.inr hwr
  case ret_ok =>
    intro o e h0
    cases h0

theorem inv_abort {p : Pool W I O} {inputs : List I} {Q : I → O × Option GoError → Prop}
    {s t : State W I O} {w : Nat} (hi : Inv p inputs Q s)
    (h : p.step inputs s (Action.abort w) = some t) : Inv p inputs Q t := by
  obtain ⟨r, e, hw, hce, rfl⟩ := step_abort h
  obtain ⟨h1, h2, h3, h4, h5, h6, h7, h8, h9, h10, h11, h12, h13, h14, h15, h16, h17, h18, h19⟩ := hi
  have hjm := mem_of_get hw
  constructor <;> try assumption
  all_goals dsimp only
  case workers_len => simpa using h2
  case joined_all =>
    intro hdj pc hpc
    have := h6 hdj _ hjm
    cases this
  case exited_why =>
    intro _
    right
    simp [hce]
  case job_ok =>
    intro pc hpc j1 hjj
    rcases mem_set_cases hpc with h0 | h0
    · subst h0
      rcases hjj with hjj | hjj <;> cases hjj
    · exact h12 pc h0 j1 hjj
  case res_ok =>
    intro r1 hr
    rcases mem_set_cases hr with h0 | h0
    · cases h0
    · exact h13 r1 h0
  case cover =>
    intro hc
    rw [hce] at hc
    cases hc

theorem inv_leave {p : Pool W I O} {inputs : List I} {Q : I → O × Option GoError → Prop}
    {s t : State W I O} {w : Nat} (hi : Inv p inputs Q s)
    (h : p.step inputs s (Action.leave w) = some t) : Inv p inputs Q t := by
  obtain ⟨hw, hjc, rfl⟩ := step_leave h
  obtain ⟨h1, h2, h3, h4, h5, h6, h7, h8, h9, h10, h11, h12, h13, h14, h15, h16, h17, h18, h19⟩ := hi
  have hjm := mem_of_get hw
  constructor <;> try assumption
  all_goals dsimp only
  case workers_len => simpa using h2
  case joined_all =>
    intro hdj pc hpc
    have := h6 hdj _ hjm
    cases this
  case exited_why =>
    intro _
    exact Or.inl hjc
  case job_ok =>
    intro pc hpc j1 hjj
    rcases mem_set_cases hpc with h0 | h0
    · subst h0
      rcases hjj with hjj | hjj <;> cases hjj
    · exact h12 pc h0 j1 hjj
  case res_ok =>
    intro r1 hr
    rcases mem_set_cases hr with h0 | h0
    · cases h0
    · exact h13 r1 h0
  case cover =>
    intro hc k hk hfeed
    rcases h18 hc k hk hfeed with hf | hwr
    · left
      exact inFlight_set _ hw rfl rfl (fun h0 => by simp [WorkerPC.idx?] at h0) hf
    · exact Or.inr hwr

theorem inv_dispDone {p : Pool W I O} {inputs : List I} {Q : I → O × Option GoError → Prop}
    {s t : State W I O} (hi : Inv p inputs Q s)
    (h : p.step inputs s Action.dispDone = some t) : Inv p inputs Q t := by
  obtain ⟨i, e, hd, hce, hil, rfl⟩ := step_dispDone h
  obtain ⟨h1, h2, h3, h4, h5, h6, h7, h8, h9, h10, h11, h12, h13, h14, h15, h16, h17, h18, h19⟩ := hi
  constructor <;> try assumption
  all_goals dsimp only
  case feed_le => simp
  case jobs_closed =>
    rw [hd] at h4
    simpa using h4
  case results_closed =>
    rw [hd] at h5
    simpa using h5
  case joined_all => simp
  case closing_why => simp [hce]
  case cover =>
    intro hc
    rw [hce] at hc
    cases hc

theorem inv_closeJobs {p : Pool W I O} {inputs : List I} {Q : I → O × Option GoError → Prop}
    {s t : State W I O} (hi : Inv p inputs Q s)
    (h : p.step inputs s Action.closeJobs = some t) : Inv p inputs Q t := by
  obtain ⟨hd, rfl⟩ := step_closeJobs h
  obtain ⟨h1, h2, h3, h4, h5, h6, h7, h8, h9, h10, h11, h12, h13, h14, h15, h16, h17, h18, h19⟩ := hi
  constructor <;> try assumption
  all_goals dsimp only
  case feed_le => simp
  case jobs_closed => simp
  case results_closed =>
    rcases hd with ⟨i, hd, _⟩ | hd <;> rw [hd] at h5 <;> simpa using h5
  case joined_all => simp
  case exited_why =>
    intro _
    exact Or.inl rfl
  case closing_why => simp
  case cover =>
    intro hc k hk _
    rcases hd with ⟨i, hd, hle⟩ | hd
    · rcases h18 hc k hk (fun i1 hi1 => by rw [hd] at hi1; cases hi1; omega) with hf | hwr
      · exact Or.inl hf
      · exact Or.inr hwr
    · exact absurd hc (h9 hd)

theorem inv_join {p : Pool W I O} {inputs : List I} {Q : I → O × Option GoError → Prop}
    {s t : State W I O} (hi : Inv p inputs Q s)
    (h : p.step inputs s Action.join = some t) : Inv p inputs Q t := by
  obtain ⟨hd, hall, rfl⟩ := step_join h
  obtain ⟨h1, h2, h3, h4, h5, h6, h7, h8, h9, h10, h11, h12, h13, h14, h15, h16, h17, h18, h19⟩ := hi
  constructor <;> try assumption
  all_goals dsimp only
  case feed_le => simp
  case jobs_closed =>
    rw [hd] at h4
    simpa using h4
  case results_closed =>
    rw [hd] at h5
    simpa using h5
  case joined_all =>
    intro _
    exact hall
  case closing_why => simp
  case cover =>
    intro hc k hk _
    exact h18 hc k hk (fun i1 hi1 => by rw [hd] at hi1; cases hi1)

theorem inv_closeResults {p : Pool W I O} {inputs : List I} {Q : I → O × Option GoError → Prop}
    {s t : State W I O} (hi : Inv p inputs Q s)
    (h : p.step inputs s Action.closeResults = some t) : Inv p inputs Q t := by
  obtain ⟨hd, rfl⟩ := step_closeResults h
  obtain ⟨h1, h2, h3, h4, h5, h6, h7, h8, h9, h10, h11, h12, h13, h14, h15, h16, h17, h18, h19⟩ := hi
  constructor <;> try assumption
  all_goals dsimp only
  case feed_le => simp
  case jobs_closed =>
    rw [hd] at h4
    simpa using h4
  case results_closed => simp
  case joined_all =>
    intro _
    exact h6 (Or.inl hd)
  case returned_closed => simp
  case closing_why => simp
  case cover =>
    intro hc k hk _
    exact h18 hc k hk (fun i1 hi1 => by rw [hd] at hi1; cases hi1)

theorem cancel_ne_none (c : Option GoError) : cancel c ≠ none := by
  cases c <;> simp [cancel]

theorem firstError_append (log : List (result O)) (r : result O) :
    firstError (log ++ [r]) = (firstError log).or r.err := by
  unfold firstError
  rw [List.filterMap_append]
  cases hl : List.filterMap (fun r => r.err) log with
  | nil => cases hr : r.err <;> simp [List.filterMap_cons, hr]
  | cons a l => simp

theorem written_set {inputs : List I} {Q : I → O × Option GoError → Prop} {outs : List O}
    {r : result O} {k : Nat} (hr : ResOk inputs Q r) (he : r.err = none)
    (h : Written inputs Q outs k) : Written inputs Q (outs.set r.idx r.out) k := by
  obtain ⟨x, o, hx, ho, hq⟩ := h
  by_cases hk : r.idx = k
  · obtain ⟨x1, hx1, hq1⟩ := hr
    rw [hk] at hx1
    rw [hx] at hx1
    cases hx1
    refine ⟨x, r.out, hx, ?_, by rw [he] at hq1; exact hq1⟩
    have hlt := lt_of_get ho
    rw [← hk] at hlt ⊢
    simp [List.getElem?_set, hlt]
  · exact ⟨x, o, hx, by rw [List.getElem?_set_ne hk]; exact ho, hq⟩

theorem inv_handle {p : Pool W I O} {inputs : List I} {Q : I → O × Option GoError → Prop}
    {s t : State W I O} (hi : Inv p inputs Q s)
    (h : p.step inputs s Action.handle = some t) : Inv p inputs Q t := by
  obtain ⟨r, hm, hcase⟩ := step_handle h
  obtain ⟨h1, h2, h3, h4, h5, h6, h7, h8, h9, h10, h11, h12, h13, h14, h15, h16, h17, h18, h19⟩ := hi
  have hrok := h14 r hm
  rcases hcase with ⟨hre, hfe, rfl⟩ | ⟨hre, rfl⟩
  · constructor <;> try assumption
    all_goals dsimp only
    case outs_len => simpa using h1
    case returned_closed => simp [MainPC.isReturned]
    case exited_why =>
      intro _
      exact Or.inr (cancel_ne_none _)
    case closing_why =>
      intro _
      exact cancel_ne_none _
    case first_cancel =>
      intro _
      exact cancel_ne_none _
    case ctx_parent =>
      intro _ h0
      exact absurd h0 hre
    case main_ok =>
      intro r1 hr1
      cases hr1
    case recv_ok =>
      intro r1 hr1
      rcases List.mem_append.1 hr1 with h0 | h0
      · exact h15 r1 h0
      · rw [List.mem_singleton] at h0
        subst h0
        exact hrok
    case first_log =>
      rw [firstError_append, ← h17, hfe]
      simp
    case cover =>
      intro hc
      exact absurd hc (cancel_ne_none _)
    case ret_ok =>
      intro o e h0
      cases h0
  · constructor <;> try assumption
    all_goals dsimp only
    case outs_len => simpa using h1
    case returned_closed => simp [MainPC.isReturned]
    case ctx_parent =>
      intro _ hf
      exact h11 (by rw [hm]; rfl) hf
    case main_ok =>
      intro r1 hr1
      cases hr1
    case recv_ok =>
      intro r1 hr1
      rcases List.mem_append.1 hr1 with h0 | h0
      · exact h15 r1 h0
      · rw [List.mem_singleton] at h0
        subst h0
        exact hrok
    case first_log =>
      rw [firstError_append, ← h17]
      rcases hre with hre | hre
      · rw [hre]
        cases s.firstErr <;> rfl
      · cases hf : s.firstErr with
        | none => exact absurd hf hre
        | some e => rfl
    case cover =>
      intro hc k hk hfeed
      have hre1 : r.err = none := by
        rcases hre with hre | hre
        · exact hre
        · exact absurd hc (h10 hre)
      rcases h18 hc k hk hfeed with hf | hwr
      · rcases hf with ⟨pc, hpc, hk1⟩ | ⟨r1, hr1, hk1⟩
        · exact Or.inl (Or.inl ⟨pc, hpc, hk1⟩)
        · rw [hm] at hr1
          cases hr1
          right
          obtain ⟨x, hx, hq⟩ := hrok
          rw [hre1] at hq
          rw [hk1] at hx
          refine ⟨x, r.out, hx, ?_, hq⟩
          rw [hk1]
          have : k < s.outs.length := by omega
          simp [List.getElem?_set, this]
      · exact Or.inr (written_set hrok hre1 hwr)
    case ret_ok =>
      intro o e h0
      cases h0

theorem inv_finish {p : Pool W I O} {inputs : List I} {Q : I → O × Option GoError → Prop}
    {s t : State W I O} (hi : Inv p inputs Q s)
    (h : p.step inputs s Action.finish = some t) : Inv p inputs Q t := by
  obtain ⟨hm, hrc, hcase⟩ := step_finish h
  obtain ⟨h1, h2, h3, h4, h5, h6, h7, h8, h9, h10, h11, h12, h13, h14, h15, h16, h17, h18, h19⟩ := hi
  have hde : s.disp = DispPC.exited := h5.1 hrc
  rcases hcase with ⟨e, hfe, rfl⟩ | ⟨e, hfe, hce, rfl⟩ | ⟨hfe, hce, rfl⟩
  · constructor <;> try assumption
    all_goals dsimp only
    case returned_closed =>
      intro _
      exact hrc
    case exited_why =>
      intro _
      exact Or.inr (cancel_ne_none _)
    case closing_why =>
      intro _
      exact cancel_ne_none _
    case first_cancel =>
      intro _
      exact cancel_ne_none _
    case ctx_parent =>
      intro h0
      simp [MainPC.isReturned] at h0
    case main_ok =>
      intro r1 hr1
      cases hr1
    case cover =>
      intro hc
      exact absurd hc (cancel_ne_none _)
    case ret_ok =>
      intro o e1 h0
      cases h0
      exact Or.inl ⟨e, hfe, rfl, rfl⟩
  · constructor <;> try assumption
    all_goals dsimp only
    case returned_closed =>
      intro _
      exact hrc
    case exited_why =>
      intro _
      exact Or.inr (cancel_ne_none _)
    case closing_why =>
      intro _
      exact cancel_ne_none _
    case first_cancel =>
      intro _
      exact cancel_ne_none _
    case ctx_parent =>
      intro h0
      simp [MainPC.isReturned] at h0
    case main_ok =>
      intro r1 hr1
      cases hr1
    case cover =>
      intro hc
      exact absurd hc (cancel_ne_none _)
    case ret_ok =>
      intro o e1 h0
      cases h0
      refine Or.inr (Or.inl ⟨e, hfe, rfl, rfl, ?_⟩)
      rw [← h11 (by rw [hm]; rfl) hfe]
      exact hce
  · constructor <;> try assumption
    all_goals dsimp only
    case returned_closed =>
      intro _
      exact hrc
    case exited_why =>
      intro _
      exact Or.inr (cancel_ne_none _)
    case closing_why =>
      intro _
      exact cancel_ne_none _
    case first_cancel =>
      intro _
      exact cancel_ne_none _
    case ctx_parent =>
      intro h0
      simp [MainPC.isReturned] at h0
    case main_ok =>
      intro r1 hr1
      cases hr1
    case cover =>
      intro hc
      exact absurd hc (cancel_ne_none _)
    case ret_ok =>
      intro o e1 h0
      cases h0
      refine Or.inr (Or.inr ⟨hfe, rfl, rfl, ?_⟩)
      intro k hk
      rcases h18 hce k hk (fun i1 hi1 => by rw [hde] at hi1; cases hi1) with hf | hwr
      · rcases hf with ⟨pc, hpc, hk1⟩ | ⟨r1, hr1, _⟩
        · rw [h6 (Or.inr hde) pc hpc] at hk1
          simp [WorkerPC.idx?] at hk1
        · rw [hm] at hr1
          cases hr1
      · exact hwr

theorem inv_parentCancel {p : Pool W I O} {inputs : List I} {Q : I → O × Option GoError → Prop}
    {s t : State W I O} {e : GoError} (hi : Inv p inputs Q s)
    (h : p.step inputs s (Action.parentCancel e) = some t) : Inv p inputs Q t := by
  obtain ⟨hpe, rfl⟩ := step_parentCancel h
  obtain ⟨h1, h2, h3, h4, h5, h6, h7, h8, h9, h10, h11, h12, h13, h14, h15, h16, h17, h18, h19⟩ := hi
  have hne : (match s.ctxErr with
      | some e0 => some e0
      | none => some e) ≠ none := by
    cases s.ctxErr <;> simp
  constructor <;> try assumption
  all_goals dsimp only
  case exited_why =>
    intro _
    exact Or.inr hne
  case closing_why =>
    intro _
    exact hne
  case first_cancel =>
    intro _
    exact hne
  case ctx_parent =>
    intro hr hf
    rw [h11 hr hf, hpe]
  case cover =>
    intro hc
    exact absurd hc hne
  case ret_ok =>
    intro o e1 h0
    rcases h19 o e1 h0 with hc | ⟨e2, _, _, _, hc⟩ | hc
    · exact Or.inl hc
    · rw [hpe] at hc
      cases hc
    · exact Or.inr (Or.inr hc)

theorem inv_step {p : Pool W I O} {inputs : List I} {Q : I → O × Option GoError → Prop}
    (hQ : ∀ w x, Q x (p.Work w x).1) {s t : State W I O} {a : Action}
    (hi : Inv p inputs Q s) (h : p.step inputs s a = some t) : Inv p inputs Q t := by
  cases a with
  | recv w => exact inv_recv hi h
  | call w => exact inv_call hi h
  | ret w => exact inv_ret hQ hi h
  | send w => exact inv_send hi h
  | abort w => exact inv_abort hi h
  | leave w => exact inv_leave hi h
  | dispDone => exact inv_dispDone hi h
  | closeJobs => exact inv_closeJobs hi h
  | join => exact inv_join hi h
  | closeResults => exact inv_closeResults hi h
  | handle => exact inv_handle hi h
  | finish => exact inv_finish hi h
  | parentCancel e => exact inv_parentCancel hi h

theorem inv_init [Inhabited O] (p : Pool W I O) (w0 : W) (inputs : List I)
    (Q : I → O × Option GoError → Prop) : Inv p inputs Q (p.init w0 inputs) := by
  constructor <;> simp [init, MainPC.isReturned, firstError]

theorem inv_runFrom {p : Pool W I O} {inputs : List I} {Q : I → O × Option GoError → Prop}
    (hQ : ∀ w x, Q x (p.Work w x).1) (sched : List Action) :
    ∀ {s t : State W I O}, Inv p inputs Q s → p.runFrom inputs s sched = some t →
      Inv p inputs Q t := by
  induction sched with
  | nil =>
    intro s t hi h
    simp [runFrom] at h
    subst h
    exact hi
  | cons a sched ih =>
    intro s t hi h
    simp only [runFrom] at h
    split at h
    · exact ih (inv_step hQ hi ‹_›) h
    · cases h

theorem inv_reachable [Inhabited O] {p : Pool W I O} {inputs : List I}
    {Q : I → O × Option GoError → Prop} (hQ : ∀ w x, Q x (p.Work w x).1) {w0 : W}
    {s : State W I O} (h : Reachable p w0 inputs s) : Inv p inputs Q s := by
  obtain ⟨sched, hs⟩ := h
  exact inv_runFrom hQ sched (inv_init p w0 inputs Q) hs

end Pool
end worker
namespace worker
namespace Pool
variable {W I O : Type}

theorem sum_rank_set {l : List (WorkerPC I O)} {w : Nat} {old : WorkerPC I O}
    (new : WorkerPC I O) (h : l[w]? = some old) :
    ((l.set w new).map WorkerPC.rank).sum + old.rank = (l.map WorkerPC.rank).sum + new.rank := by
  induction l generalizing w with
  | nil => simp at h
  | cons a l ih =>
    cases w with
    | zero =>
      simp at h
      subst h
      simp only [List.set, List.map_cons, List.sum_cons]
      omega
    | succ w =>
      simp at h
      have := ih h
      simp only [List.set, List.map_cons, List.sum_cons]
      omega

theorem step_measure {p : Pool W I O} {inputs : List I} {s t : State W I O} {a : Action}
    (h : p.step inputs s a = some t) : t.measure inputs < s.measure inputs := by
  cases a with
  | recv w =>
    obtain ⟨i, x, hd, hw, hj, hx, rfl⟩ := step_recv h
    have hil : i < inputs.length := lt_of_get hx
    have := sum_rank_set (WorkerPC.holding ⟨i, x⟩) hw
    simp only [State.measure, hd, DispPC.rank, WorkerPC.rank] at this ⊢
    omega
  | call w =>
    obtain ⟨j, hw, rfl⟩ := step_call h
    have := sum_rank_set (WorkerPC.running j) hw
    simp only [State.measure, WorkerPC.rank] at this ⊢
    omega
  | ret w =>
    obtain ⟨j, hw, rfl⟩ := step_ret h
    have := sum_rank_set (WorkerPC.selecting
      ⟨j.idx, (p.Work s.world j.inp).1.1, (p.Work s.world j.inp).1.2⟩) hw
    simp only [State.measure, WorkerPC.rank] at this ⊢
    omega
  | send w =>
    obtain ⟨r, hw, hm, hrc, rfl⟩ := step_send h
    have := sum_rank_set WorkerPC.ranging hw
    simp only [State.measure, WorkerPC.rank, hm, MainPC.rank] at this ⊢
    omega
  | abort w =>
    obtain ⟨r, e, hw, hce, rfl⟩ := step_abort h
    have := sum_rank_set WorkerPC.exited hw
    simp only [State.measure, WorkerPC.rank] at this ⊢
    omega
  | leave w =>
    obtain ⟨hw, hjc, rfl⟩ := step_leave h
    have := sum_rank_set WorkerPC.exited hw
    simp only [State.measure, WorkerPC.rank] at this ⊢
    omega
  | dispDone =>
    obtain ⟨i, e, hd, hce, hil, rfl⟩ := step_dispDone h
    simp only [State.measure, hd, DispPC.rank]
    omega
  | closeJobs =>
    obtain ⟨hd, rfl⟩ := step_closeJobs h
    rcases hd with ⟨i, hd, _⟩ | hd <;> simp only [State.measure, hd, DispPC.rank] <;> omega
  | join =>
    obtain ⟨hd, hall, rfl⟩ := step_join h
    simp only [State.measure, hd, DispPC.rank]
    omega
  | closeResults =>
    obtain ⟨hd, rfl⟩ := step_closeResults h
    simp only [State.measure, hd, DispPC.rank]
    omega
  | handle =>
    obtain ⟨r, hm, hcase⟩ := step_handle h
    rcases hcase with ⟨_, _, rfl⟩ | ⟨_, rfl⟩ <;> simp only [State.measure, hm, MainPC.rank] <;> omega
  | finish =>
    obtain ⟨hm, hrc, hcase⟩ := step_finish h
    rcases hcase with ⟨e, _, rfl⟩ | ⟨e, _, _, rfl⟩ | ⟨_, _, rfl⟩ <;>
      simp only [State.measure, hm, MainPC.rank] <;> omega
  | parentCancel e =>
    obtain ⟨hpe, rfl⟩ := step_parentCancel h
    simp [State.measure, hpe]

theorem runFrom_measure {p : Pool W I O} {inputs : List I} (sched : List Action) :
    ∀ {s t : State W I O}, p.runFrom inputs s sched = some t →
      sched.length + t.measure inputs ≤ s.measure inputs := by
  induction sched with
  | nil =>
    intro s t h
    simp [runFrom] at h
    subst h
    simp
  | cons a sched ih =>
    intro s t h
    simp only [runFrom] at h
    split at h
    · rename_i u hu
      have h1 := ih h
      have h2 := step_measure hu
      simp only [List.length_cons]
      omega
    · cases h

theorem measure_init [Inhabited O] (p : Pool W I O) (w0 : W) (inputs : List I) :
    (p.init w0 inputs).measure inputs = p.workerCount + 5 * inputs.length + 6 := by
  simp [State.measure, init, DispPC.rank, MainPC.rank, WorkerPC.rank]
  omega

theorem workerCount_pos (p : Pool W I O) : 0 < p.workerCount := by
  unfold workerCount
  split <;> omega

theorem get_of_mem {α : Type} {l : List α} {a : α} (h : a ∈ l) : ∃ w : Nat, l[w]? = some a := by
  obtain ⟨n, hn, hx⟩ := List.mem_iff_getElem.1 h
  exact ⟨n, by rw [List.getElem?_eq_getElem hn, hx]⟩

theorem worker_enabled {p : Pool W I O} {inputs : List I} {s : State W I O} {w : Nat}
    {pc : WorkerPC I O} (hw : s.workers[w]? = some pc) (hm : s.main = MainPC.ranging)
    (hrc : s.resultsClosed = false) (hpc : pc ≠ WorkerPC.exited)
    (hrg : pc = WorkerPC.ranging →
      s.jobsClosed = true ∨ ∃ i, s.disp = DispPC.feeding i ∧ i < inputs.length ∧ s.jobsClosed = false) :
    ∃ a, (∀ e, a ≠ Action.parentCancel e) ∧ (p.step inputs s a).isSome = true := by
  cases pc with
  | ranging =>
    rcases hrg rfl with hj | ⟨i, hd, hil, hj⟩
    · exact ⟨Action.leave w, by simp, by simp [step, hw, hj]⟩
    · refine ⟨Action.recv w, by simp, ?_⟩
      simp [step, hw, hj, hd, List.getElem?_eq_getElem hil]
  | holding j => exact ⟨Action.call w, by simp, by simp [step, hw]⟩
  | running j => exact ⟨Action.ret w, by simp, by simp [step, hw]⟩
  | selecting r => exact ⟨Action.send w, by simp, by simp [step, hw, hm, hrc]⟩
  | exited => exact absurd rfl hpc

theorem progress {p : Pool W I O} {inputs : List I} {Q : I → O × Option GoError → Prop}
    {s : State W I O} (hi : Inv p inputs Q s) (hnr : s.main.isReturned = false) :
    ∃ a, (∀ e, a ≠ Action.parentCancel e) ∧ (p.step inputs s a).isSome = true := by
  cases hm : s.main with
  | returned o e => simp [hm, MainPC.isReturned] at hnr
  | handling r =>
    refine ⟨Action.handle, ?_⟩
    by_cases hc : (r.err.isSome && s.firstErr.isNone) = true
    · exact ⟨by simp, by simp only [step, hm, hc]; simp⟩
    · exact ⟨by simp, by simp only [step, hm, hc]; simp⟩
  | ranging =>
    cases hd : s.disp with
    | closing => exact ⟨Action.closeJobs, by simp, by simp [step, hd]⟩
    | joined => exact ⟨Action.closeResults, by simp, by simp [step, hd]⟩
    | exited =>
      have hrc := hi.results_closed.2 hd
      refine ⟨Action.finish, ?_⟩
      cases hf : s.firstErr with
      | some e => exact ⟨by simp, by simp [step, hm, hrc, hf]⟩
      | none =>
        cases hc : s.ctxErr with
        | some e => exact ⟨by simp, by simp [step, hm, hrc, hf, hc]⟩
        | none => exact ⟨by simp, by simp [step, hm, hrc, hf, hc]⟩
    | waiting =>
      have hjc : s.jobsClosed = true := hi.jobs_closed.2 (Or.inl hd)
      have hrc : s.resultsClosed = false := by
        cases h0 : s.resultsClosed with
        | false => rfl
        | true =>
          have := hi.results_closed.1 h0
          rw [hd] at this
          cases this
      by_cases hall : s.workers.all WorkerPC.isExited = true
      · exact ⟨Action.join, by simp, by simp [step, hd, hall]⟩
      · rw [List.all_eq_true] at hall
        push_neg at hall
        obtain ⟨pc, hpc, hne⟩ := hall
        obtain ⟨w, hw⟩ := get_of_mem hpc
        exact worker_enabled hw hm hrc (by rintro rfl; simp [WorkerPC.isExited] at hne)
          (fun _ => Or.inl hjc)
    | feeding i =>
      have hjc : s.jobsClosed = false := by
        cases h0 : s.jobsClosed with
        | false => rfl
        | true =>
          have := hi.jobs_closed.1 h0
          rw [hd] at this
          simp at this
      have hrc : s.resultsClosed = false := by
        cases h0 : s.resultsClosed with
        | false => rfl
        | true =>
          have := hi.results_closed.1 h0
          rw [hd] at this
          cases this
      by_cases hil : inputs.length ≤ i
      · exact ⟨Action.closeJobs, by simp, by simp [step, hd, hil]⟩
      · have hil1 : i < inputs.length := by omega
        cases hc : s.ctxErr with
        | some e => exact ⟨Action.dispDone, by simp, by simp [step, hd, hc, hil1]⟩
        | none =>
          have hlen : 0 < s.workers.length := by
            rw [hi.workers_len]
            exact workerCount_pos p
          have hw : s.workers[0]? = some s.workers[0] := List.getElem?_eq_getElem hlen
          refine worker_enabled hw hm hrc ?_ (fun _ => Or.inr ⟨i, hd, hil1, hjc⟩)
          intro hex
          have hmem : WorkerPC.exited ∈ s.workers := by
            rw [← hex]
            exact List.getElem_mem hlen
          rcases hi.exited_why hmem with h0 | h0
          · rw [hjc] at h0
            cases h0
          · exact h0 hc

end Pool
end worker
namespace worker
namespace Pool
variable {W I O : Type}

theorem run_bound [Inhabited O] {p : Pool W I O} {w0 : W} {inputs : List I} {sched : List Action}
    {s : State W I O} (h : p.Run w0 inputs sched = some s) :
    sched.length ≤ p.workerCount + 5 * inputs.length + 6 := by
  have := runFrom_measure sched h
  rw [measure_init] at this
  omega

theorem firstError_mem {log : List (result O)} {e : GoError} (h : firstError log = some e) :
    ∃ r ∈ log, r.err = some e := by
  unfold firstError at h
  have hm : e ∈ log.filterMap (fun r => r.err) := List.mem_of_mem_head? h
  obtain ⟨r, hr, he⟩ := List.mem_filterMap.1 hm
  exact ⟨r, hr, he⟩

theorem written_all {f : I → O × Option GoError} {inputs : List I} {outs : List O}
    (hlen : outs.length = inputs.length)
    (h : ∀ k, k < inputs.length → Written inputs (fun x y => y = f x) outs k) :
    outs = inputs.map (fun x => (f x).1) ∧ ∀ x ∈ inputs, (f x).2 = none := by
  constructor
  · apply List.ext_getElem?
    intro k
    rcases Nat.lt_or_ge k inputs.length with hk | hk
    · obtain ⟨x, o, hx, ho, hq⟩ := h k hk
      rw [ho, List.getElem?_map, hx]
      simp [← hq]
    · rw [List.getElem?_eq_none (by omega), List.getElem?_eq_none (by simpa using hk)]
  · intro x hx
    obtain ⟨k, hk⟩ := get_of_mem hx
    obtain ⟨x1, o, hx1, ho, hq⟩ := h k (lt_of_get hk)
    rw [hk] at hx1
    cases hx1
    simp [← hq]

theorem firstErr_source {p : Pool W I O} {inputs : List I} {Q : I → O × Option GoError → Prop}
    {s : State W I O} (hi : Inv p inputs Q s) {e : GoError} (h : s.firstErr = some e) :
    ∃ (k : Nat) (x : I) (o : O), inputs[k]? = some x ∧ Q x (o, some e) := by
  rw [hi.first_log] at h
  obtain ⟨r, hr, he⟩ := firstError_mem h
  obtain ⟨x, hx, hq⟩ := hi.recv_ok r hr
  rw [he] at hq
  exact ⟨r.idx, x, r.out, hx, hq⟩

end Pool
end worker

namespace worker
namespace Pool
variable {W I O : Type}

theorem inv_may [Inhabited O] {p : Pool W I O} {inputs : List I} {w0 : W}
    {sched : List Action} {s : State W I O} (hrun : p.Run w0 inputs sched = some s) :
    Inv p inputs p.MayReturn s :=
  inv_reachable (fun w _ => ⟨w, rfl⟩) ⟨sched, hrun⟩

theorem ret_general [Inhabited O] {p : Pool W I O} {inputs : List I} {w0 : W}
    {sched : List Action} {s : State W I O} (hrun : p.Run w0 inputs sched = some s)
    {outs : Option (List O)} {err : Option GoError} (hret : s.main = MainPC.returned outs err) :
    (∃ e, s.firstErr = some e ∧ firstError s.received = some e ∧ outs = none ∧ err = some e ∧
      ∃ x ∈ inputs, ∃ w, (p.Work w x).1.2 = some e) ∨
    (∃ e, s.firstErr = none ∧ firstError s.received = none ∧ outs = none ∧ err = some e ∧
      s.parentErr = some e) ∨
    (s.firstErr = none ∧ err = none ∧
      ∃ l, outs = some l ∧ l.length = inputs.length ∧
        ∀ (i : Nat) (x : I), inputs[i]? = some x → ∃ o, l[i]? = some o ∧ p.MayReturn x (o, none)) := by
  have hi := inv_may hrun
  rcases hi.ret_ok outs err hret with ⟨e, hf, ho, he⟩ | ⟨e, hf, ho, he, hp⟩ | ⟨hf, he, ho, hwr⟩
  · left
    obtain ⟨k, x, o, hx, w, hq⟩ := firstErr_source hi hf
    exact ⟨e, hf, hi.first_log ▸ hf, ho, he, x, List.getElem?_mem hx, w, by rw [hq]⟩
  · right; left
    exact ⟨e, hf, hi.first_log ▸ hf, ho, he, hp⟩
  · right; right
    refine ⟨hf, he, s.outs, ho, hi.outs_len, ?_⟩
    intro i x hx
    obtain ⟨x1, o, hx1, ho1, hq⟩ := hwr i (lt_of_get hx)
    rw [hx] at hx1
    cases hx1
    exact ⟨o, ho1, hq⟩

theorem outputs_map {p : Pool W I O} {inputs : List I} {l : List O} (f : I → O)
    (hf : ∀ w x, (p.Work w x).1.1 = f x) (hlen : l.length = inputs.length)
    (h : ∀ (i : Nat) (x : I), inputs[i]? = some x → ∃ o, l[i]? = some o ∧ p.MayReturn x (o, none)) :
    l = inputs.map f := by
  apply List.ext_getElem?
  intro i
  rcases Nat.lt_or_ge i inputs.length with hi | hi
  · obtain ⟨o, ho, w, hw⟩ := h i inputs[i] (List.getElem?_eq_getElem hi)
    rw [ho, List.getElem?_map, List.getElem?_eq_getElem hi, Option.map_some', ← hf w, hw]
  · rw [List.getElem?_eq_none (by omega), List.getElem?_eq_none (by simpa using hi)]

end Pool
end worker
namespace worker
namespace Pool
variable {W I O : Type}

theorem parent_step {p : Pool W I O} {inputs : List I} {s t : State W I O} {a : Action}
    (h : p.step inputs s a = some t) (ha : ∀ e, a ≠ Action.parentCancel e) :
    t.parentErr = s.parentErr := by
  cases a with
  | recv w => obtain ⟨i, x, _, _, _, _, rfl⟩ := step_recv h; rfl
  | call w => obtain ⟨j, _, rfl⟩ := step_call h; rfl
  | ret w => obtain ⟨j, _, rfl⟩ := step_ret h; rfl
  | send w => obtain ⟨r, _, _, _, rfl⟩ := step_send h; rfl
  | abort w => obtain ⟨r, e, _, _, rfl⟩ := step_abort h; rfl
  | leave w => obtain ⟨_, _, rfl⟩ := step_leave h; rfl
  | dispDone => obtain ⟨i, e, _, _, _, rfl⟩ := step_dispDone h; rfl
  | closeJobs => obtain ⟨_, rfl⟩ := step_closeJobs h; rfl
  | join => obtain ⟨_, _, rfl⟩ := step_join h; rfl
  | closeResults => obtain ⟨_, rfl⟩ := step_closeResults h; rfl
  | handle =>
    obtain ⟨r, _, hcase⟩ := step_handle h
    rcases hcase with ⟨_, _, rfl⟩ | ⟨_, rfl⟩ <;> rfl
  | finish =>
    obtain ⟨_, _, hcase⟩ := step_finish h
    rcases hcase with ⟨e, _, rfl⟩ | ⟨e, _, _, rfl⟩ | ⟨_, _, rfl⟩ <;> rfl
  | parentCancel e => exact absurd rfl (ha e)

theorem completes_of_inv {p : Pool W I O} {inputs : List I}
    (hQ : ∀ w x, (fun (_ : I) (_ : O × Option GoError) => True) x (p.Work w x).1) (n : Nat) :
    ∀ s : State W I O, s.measure inputs ≤ n → Inv p inputs (fun _ _ => True) s →
      Completes p inputs s := by
  induction n with
  | zero =>
    intro s hn hi
    cases hr : s.main.isReturned with
    | true => exact ⟨[], s, rfl, hr, rfl⟩
    | false =>
      obtain ⟨a, _, ha⟩ := progress hi hr
      obtain ⟨u, hu⟩ := Option.isSome_iff_exists.1 ha
      have := step_measure hu
      omega
  | succ n ih =>
    intro s hn hi
    cases hr : s.main.isReturned with
    | true => exact ⟨[], s, rfl, hr, rfl⟩
    | false =>
      obtain ⟨a, hna, ha⟩ := progress hi hr
      obtain ⟨u, hu⟩ := Option.isSome_iff_exists.1 ha
      have hm := step_measure hu
      obtain ⟨rest, t, hrest, hret, hpar⟩ := ih u (by omega) (inv_step hQ hi hu)
      refine ⟨a :: rest, t, ?_, hret, by rw [hpar, parent_step hu hna]⟩
      simp only [runFrom, hu]
      exact hrest

theorem completes [Inhabited O] {p : Pool W I O} {inputs : List I} {w0 : W}
    {sched : List Action} {s : State W I O} (hrun : p.Run w0 inputs sched = some s) :
    Completes p inputs s :=
  completes_of_inv (fun _ _ => trivial) _ s (Nat.le_refl _)
    (inv_reachable (fun _ _ => trivial) ⟨sched, hrun⟩)

end Pool
end worker
namespace worker
namespace Pool
variable {W I O : Type}

theorem ret_cases [Inhabited O] {p : Pool W I O} {f : I → O × Option GoError}
    (hW : ∀ w x, (p.Work w x).1 = f x) {inputs : List I} {w0 : W} {sched : List Action}
    {s : State W I O} (hrun : p.Run w0 inputs sched = some s)
    {outs : Option (List O)} {err : Option GoError} (hret : s.main = MainPC.returned outs err) :
    (∃ e, s.firstErr = some e ∧ firstError s.received = some e ∧ outs = none ∧ err = some e ∧
      ∃ x ∈ inputs, (f x).2 = some e) ∨
    (∃ e, s.firstErr = none ∧ firstError s.received = none ∧ outs = none ∧ err = some e ∧
      s.parentErr = some e) ∨
    (s.firstErr = none ∧ err = none ∧ outs = some (inputs.map (fun x => (f x).1)) ∧
      ∀ x ∈ inputs, (f x).2 = none) := by
  have hi : Inv p inputs (fun x y => y = f x) s :=
    inv_reachable (fun w x => (hW w x).symm ▸ rfl) ⟨sched, hrun⟩
  rcases hi.ret_ok outs err hret with ⟨e, hf, ho, he⟩ | ⟨e, hf, ho, he, hp⟩ | ⟨hf, he, ho, hwr⟩
  · left
    obtain ⟨k, x, o, hx, hq⟩ := firstErr_source hi hf
    exact ⟨e, hf, hi.first_log ▸ hf, ho, he, x, List.getElem?_mem hx, by simp [← hq]⟩
  · right; left
    exact ⟨e, hf, hi.first_log ▸ hf, ho, he, hp⟩
  · right; right
    obtain ⟨h1, h2⟩ := written_all hi.outs_len hwr
    exact ⟨hf, he, by rw [ho, h1], h2⟩

theorem can_step [Inhabited O] {p : Pool W I O} {inputs : List I} {w0 : W} {sched : List Action}
    {s : State W I O} (hrun : p.Run w0 inputs sched = some s)
    (hnr : s.main.isReturned = false) : CanStep p inputs s :=
  progress (inv_reachable (Q := fun _ _ => True) (fun _ _ => trivial) ⟨sched, hrun⟩) hnr

/-- C1. Order preservation: for every work function, stateful or not, that
succeeds on every input of the sequence whatever the world it is called in, when
the caller's context is not cancelled every execution of `Run` takes at most
`stepBound` steps, can always take a further step until `Run` returns, can be
continued until `Run` returns, and returns a nil error and a sequence of the
length of the inputs whose slot `i` is the output of an error-free call of the
work function on `inputs[i]`; when the outputs of the work function are a
function `f` of its input the sequence is `f` mapped over the inputs. -/
theorem Run_order_preserved [Inhabited O] (p : Pool W I O) (inputs : List I)
    (hok : ∀ w, ∀ x ∈ inputs, (p.Work w x).1.2 = none) (w0 : W) (sched : List Action)
    (s : State W I O) (hrun : p.Run w0 inputs sched = some s) (hctx : s.parentErr = none) :
    sched.length ≤ p.stepBound inputs ∧
    (s.main.isReturned = false → CanStep p inputs s) ∧
    Completes p inputs s ∧
    ∀ outs err, s.main = MainPC.returned outs err →
      err = none ∧
      (∃ l, outs = some l ∧ l.length = inputs.length ∧
        ∀ (i : Nat) (x : I), inputs[i]? = some x →
          ∃ o, l[i]? = some o ∧ p.MayReturn x (o, none)) ∧
      ∀ f : I → O, (∀ w x, (p.Work w x).1.1 = f x) → outs = some (inputs.map f) := by
  refine ⟨run_bound hrun, can_step hrun, completes hrun, ?_⟩
  intro outs err hret
  rcases ret_general hrun hret with ⟨e, _, _, _, _, x, hx, w, hfx⟩ | ⟨e, _, _, _, _, hp⟩ |
    ⟨_, he, l, ho, hlen, hall⟩
  · rw [hok w x hx] at hfx
    cases hfx
  · rw [hctx] at hp
    cases hp
  · refine ⟨he, ⟨l, ho, hlen, hall⟩, ?_⟩
    intro f hf
    rw [ho, outputs_map f hf hlen hall]

/-- Witness of C1: inputs a, b, c, upper-case, 2 workers. -/
theorem Run_order_preserved_witness :
    scenario.schedUpper.length ≤ scenario.upperPool.stepBound ["a", "b", "c"] ∧
    (none : Option GoError) = none ∧
    some ["A", "B", "C"] = some (["a", "b", "c"].map scenario.upper) :=
  have h := Run_order_preserved scenario.upperPool ["a", "b", "c"] (fun _ _ _ => rfl) ()
    scenario.schedUpper _ rfl rfl
  have h1 := h.2.2.2 (some ["A", "B", "C"]) none rfl
  ⟨h.1, h1.1, h1.2.2 scenario.upper (fun _ _ => rfl)⟩

/-- C2. Fail-fast on a single failure: for every work function, stateful or not,
that fails with `e` on the input at index `k` and succeeds on the input at every
other index, whatever the world it is called in, when the caller's context is not
cancelled every execution of `Run` takes at most `stepBound` steps, can always
take a further step until `Run` returns, can be continued until `Run` returns,
and returns the nil slice with exactly the error `e`. -/
theorem Run_single_failure [Inhabited O] (p : Pool W I O) (inputs : List I) (k : Nat) (xk : I)
    (e : GoError) (hk : inputs[k]? = some xk) (hfail : ∀ w, (p.Work w xk).1.2 = some e)
    (hothers : ∀ i x, inputs[i]? = some x → i ≠ k → ∀ w, (p.Work w x).1.2 = none)
    (w0 : W) (sched : List Action) (s : State W I O)
    (hrun : p.Run w0 inputs sched = some s) (hctx : s.parentErr = none) :
    sched.length ≤ p.stepBound inputs ∧
    (s.main.isReturned = false → CanStep p inputs s) ∧
    Completes p inputs s ∧
    ∀ outs err, s.main = MainPC.returned outs err → outs = none ∧ err = some e := by
  refine ⟨run_bound hrun, can_step hrun, completes hrun, ?_⟩
  intro outs err hret
  rcases ret_general hrun hret with ⟨e1, _, _, ho, he, x, hx, w, hfx⟩ | ⟨e1, _, _, _, _, hp⟩ |
    ⟨_, _, l, _, _, hall⟩
  · refine ⟨ho, ?_⟩
    obtain ⟨i, hi⟩ := get_of_mem hx
    by_cases hik : i = k
    · subst hik
      rw [hk] at hi
      cases hi
      rw [hfail w] at hfx
      rw [he, ← hfx]
    · rw [hothers i x hi hik w] at hfx
      cases hfx
  · rw [hctx] at hp
    cases hp
  · obtain ⟨o, _, w, hw⟩ := hall k xk hk
    have := hfail w
    rw [hw] at this
    cases this

/-- Witness of C2: inputs ok, empty, ok with 2 workers; the empty input fails. -/
theorem Run_single_failure_witness :
    scenario.schedFailFast.length ≤ (scenario.failPool 2).stepBound ["ok", "", "ok"] ∧
    (none : Option (List String)) = none ∧ some scenario.errEmpty = some scenario.errEmpty :=
  have h := Run_single_failure (scenario.failPool 2) ["ok", "", "ok"] 1 "" scenario.errEmpty
    rfl (fun _ => rfl)
    (by
      intro i x hi hik w
      rcases i with _ | _ | _ | i
      · cases hi; rfl
      · exact absurd rfl hik
      · cases hi; rfl
      · cases hi)
    () scenario.schedFailFast _ rfl rfl
  ⟨h.1, h.2.2.2 _ _ rfl⟩

/-- Counterexample to C3 as stated: inputs ok, empty, ok with 1 worker, the
caller's deadline passing before the first job is handed out: `Run` returns
`context.DeadlineExceeded`, which the work function returns on no input. -/
theorem Run_first_error_counterexample :
    (((scenario.failPool 1).Run () ["ok", "", "ok"] scenario.schedDeadline).map
        (fun s => s.main) =
      some (MainPC.returned none (some context.DeadlineExceeded))) ∧
    ["ok", "", "ok"].map (fun x => (scenario.failWork x).2) =
      [none, some scenario.errEmpty, none] ∧
    scenario.errEmpty ≠ context.DeadlineExceeded := by
  decide

/-- C3, amended. Exactly one error: for every work function, stateful or not,
that fails on one or more inputs of the sequence whatever the world it is
called in, every execution of `Run` takes at most `stepBound` steps, can always
take a further step and be continued until `Run` returns, and returns the nil
slice with a non-nil error. The error is the error of the first error-carrying
outcome the collector received, which a call of the work function on one of the
inputs returned, or, when the collector received no error-carrying outcome, the
error of the caller's context; it is the former whenever the caller's context is
not cancelled. -/
theorem Run_first_error [Inhabited O] (p : Pool W I O) (inputs : List I)
    (hfail : ∃ x ∈ inputs, ∀ w, (p.Work w x).1.2 ≠ none) (w0 : W) (sched : List Action)
    (s : State W I O) (hrun : p.Run w0 inputs sched = some s) :
    sched.length ≤ p.stepBound inputs ∧
    (s.main.isReturned = false → CanStep p inputs s) ∧
    Completes p inputs s ∧
    ∀ outs err, s.main = MainPC.returned outs err →
      outs = none ∧ err ≠ none ∧
      ((err = firstError s.received ∧ ∃ x ∈ inputs, ∃ w, (p.Work w x).1.2 = err) ∨
        (firstError s.received = none ∧ err = s.parentErr)) ∧
      (s.parentErr = none →
        err = firstError s.received ∧ ∃ x ∈ inputs, ∃ w, (p.Work w x).1.2 = err) := by
  refine ⟨run_bound hrun, can_step hrun, completes hrun, ?_⟩
  intro outs err hret
  rcases ret_general hrun hret with ⟨e1, _, hlog, ho, he, x, hx, w, hfx⟩ |
    ⟨e1, _, hlog, ho, he, hp⟩ | ⟨_, _, l, _, _, hall⟩
  · have hsrc : err = firstError s.received ∧ ∃ x ∈ inputs, ∃ w, (p.Work w x).1.2 = err :=
      ⟨by rw [he, hlog], x, hx, w, by rw [he, hfx]⟩
    exact ⟨ho, by simp [he], Or.inl hsrc, fun _ => hsrc⟩
  · refine ⟨ho, by simp [he], Or.inr ⟨hlog, by rw [he, hp]⟩, ?_⟩
    intro hn
    rw [hn] at hp
    cases hp
  · obtain ⟨x, hx, hne⟩ := hfail
    obtain ⟨i, hi⟩ := get_of_mem hx
    obtain ⟨o, _, w, hw⟩ := hall i x hi
    exact absurd (by rw [hw]) (hne w)

/-- Witness of C3, amended: inputs empty, x, empty with 2 workers; the success of
the second input is collected before the failure of the first. -/
theorem Run_first_error_witness :
    (none : Option (List String)) = none ∧ some scenario.errEmpty ≠ none :=
  have h := Run_first_error (scenario.failPool 2) ["", "x", ""]
    ⟨"", by decide, fun _ => by show (scenario.failWork "").2 ≠ none; decide⟩ ()
    scenario.schedTwoFailures _ rfl
  have h1 := h.2.2.2 none (some scenario.errEmpty) rfl
  ⟨h1.1, h1.2.1⟩

/-- C4. All-or-nothing: for every pool and work function, stateful or not, in
every execution of `Run`, the caller's context cancelled at any point or not,
`Run` returns either a non-nil error with the nil slice, or a nil error with a
sequence of the length of the inputs whose slot `i` is the output of an
error-free call of the work function on `inputs[i]`, which is `f` mapped over the
inputs when the outputs of the work function are a function `f` of its input;
and every execution takes at most `stepBound` steps and can always take a
further step and be continued until `Run` returns. -/
theorem Run_all_or_nothing [Inhabited O] (p : Pool W I O) (inputs : List I) (w0 : W)
    (sched : List Action) (s : State W I O) (hrun : p.Run w0 inputs sched = some s) :
    sched.length ≤ p.stepBound inputs ∧
    (s.main.isReturned = false → CanStep p inputs s) ∧
    Completes p inputs s ∧
    ∀ outs err, s.main = MainPC.returned outs err →
      (err ≠ none ∧ outs = none) ∨
      (err = none ∧
        (∃ l, outs = some l ∧ l.length = inputs.length ∧
          ∀ (i : Nat) (x : I), inputs[i]? = some x →
            ∃ o, l[i]? = some o ∧ p.MayReturn x (o, none)) ∧
        ∀ f : I → O, (∀ w x, (p.Work w x).1.1 = f x) → outs = some (inputs.map f)) := by
  refine ⟨run_bound hrun, can_step hrun, completes hrun, ?_⟩
  intro outs err hret
  rcases ret_general hrun hret with ⟨e1, _, _, ho, he, _⟩ | ⟨e1, _, _, ho, he, _⟩ |
    ⟨_, he, l, ho, hlen, hall⟩
  · exact Or.inl ⟨by simp [he], ho⟩
  · exact Or.inl ⟨by simp [he], ho⟩
  · refine Or.inr ⟨he, ⟨l, ho, hlen, hall⟩, ?_⟩
    intro f hf
    rw [ho, outputs_map f hf hlen hall]

/-- Witness of C4: the pool of `BulkCreate` with 4 workers on the items of
`TestBulkCreate_AllOrNothing`, whose work function draws from a clock and an ID
generator; the run returns the validation error and the nil slice. -/
theorem Run_all_or_nothing_witness :
    service.scenario.schedTest.length ≤
      service.scenario.memoryService.pool.stepBound service.scenario.testItems ∧
    (some (service.wrapValidation "title is required") ≠ none ∧
      (none : Option (List model.Todo)) = none) :=
  have h := Run_all_or_nothing service.scenario.memoryService.pool service.scenario.testItems 0
    service.scenario.schedTest _ rfl
  ⟨h.1, (h.2.2.2 none (some (service.wrapValidation "title is required")) rfl).resolve_right
    (fun hr => by cases hr.1)⟩

theorem step_congr (p q : Pool W I O) (h : p.Work = q.Work) (inputs : List I)
    (s : State W I O) (a : Action) : p.step inputs s a = q.step inputs s a := by
  cases a <;> simp only [step, h]

theorem runFrom_congr (p q : Pool W I O) (h : p.Work = q.Work) (inputs : List I)
    (sched : List Action) : ∀ s : State W I O, p.runFrom inputs s sched = q.runFrom inputs s sched := by
  induction sched with
  | nil => intro s; rfl
  | cons a sched ih =>
    intro s
    simp only [runFrom, step_congr p q h]
    split
    · exact ih _
    · rfl

/-- C5. Clamping: with a worker count below 1, `Run` starts one worker, and under
every schedule it executes exactly as the pool with worker count 1 and the same
work function does, reaching the same state and so the same results. -/
theorem Run_clamps_workers [Inhabited O] (p : Pool W I O) (hw : p.Workers < 1) (w0 : W)
    (inputs : List I) (sched : List Action) :
    (p.init w0 inputs).workers.length = 1 ∧
    p.Run w0 inputs sched = Pool.Run { Workers := 1, Work := p.Work } w0 inputs sched := by
  have hc : p.workerCount = 1 := by simp [workerCount, hw]
  have hc1 : Pool.workerCount ({ Workers := 1, Work := p.Work } : Pool W I O) = 1 := by
    simp [workerCount]
  have hi : p.init w0 inputs = Pool.init { Workers := 1, Work := p.Work } w0 inputs := by
    simp only [init, hc, hc1]
  refine ⟨by simp only [init, hc]; rfl, ?_⟩
  unfold Run
  rw [hi]
  exact runFrom_congr p { Workers := 1, Work := p.Work } rfl inputs sched _

/-- Witness of C5: worker count -3 on inputs ok, empty, ok. -/
theorem Run_clamps_workers_witness :
    ((scenario.failPool (-3)).init () ["ok", "", "ok"]).workers.length = 1 ∧
    (scenario.failPool (-3)).Run () ["ok", "", "ok"] scenario.schedDeadline =
      Pool.Run { Workers := 1, Work := (scenario.failPool (-3)).Work } () ["ok", "", "ok"]
        scenario.schedDeadline :=
  Run_clamps_workers (scenario.failPool (-3)) (by decide) () ["ok", "", "ok"]
    scenario.schedDeadline

/-- Counterexample to C6 as stated: on the empty input with worker count 0, the
caller cancelling its context before `Run` returns, `Run` returns the nil
slice and `context.Canceled`. -/
theorem Run_empty_counterexample :
    ((scenario.failPool 0).Run () [] scenario.schedEmptyCancelled).map (fun s => s.main) =
      some (MainPC.returned none (some context.Canceled)) := by
  decide

/-- C6, amended. Empty input: for every worker count and work function, every
execution of `Run` on the empty input takes at most `stepBound` steps, can always
take a further step and be continued until `Run` returns, and never calls the
work function. When
the caller's context is not cancelled `Run` returns an empty non-nil slice and a
nil error; otherwise it returns that or the nil slice with the error of the
caller's context. -/
theorem Run_empty [Inhabited O] (p : Pool W I O) (w0 : W) (sched : List Action)
    (s : State W I O) (hrun : p.Run w0 [] sched = some s) :
    sched.length ≤ p.stepBound [] ∧
    (s.main.isReturned = false → CanStep p [] s) ∧
    Completes p [] s ∧
    s.calls = [] ∧
    ∀ outs err, s.main = MainPC.returned outs err →
      ((outs = some [] ∧ err = none) ∨ (outs = none ∧ err ≠ none ∧ err = s.parentErr)) ∧
      (s.parentErr = none → outs = some [] ∧ err = none) := by
  have hi : Inv p [] (fun _ _ => True) s :=
    inv_reachable (fun _ _ => trivial) ⟨sched, hrun⟩
  refine ⟨run_bound hrun, can_step hrun, completes hrun, ?_, ?_⟩
  · cases hc : s.calls with
    | nil => rfl
    | cons j l =>
      have := hi.calls_ok j (by rw [hc]; exact List.mem_cons_self _ _)
      simp at this
  · intro outs err hret
    have hnf : s.firstErr = none := by
      cases hf : s.firstErr with
      | none => rfl
      | some e =>
        obtain ⟨k, x, o, hx, _⟩ := firstErr_source hi hf
        simp at hx
    rcases hi.ret_ok outs err hret with ⟨e, hf, _⟩ | ⟨e, _, ho, he, hp⟩ | ⟨_, he, ho, _⟩
    · rw [hnf] at hf
      cases hf
    · refine ⟨Or.inr ⟨ho, by simp [he], by rw [he, hp]⟩, ?_⟩
      intro hn
      rw [hn] at hp
      cases hp
    · have hl : s.outs = [] := List.length_eq_zero.1 (by simpa using hi.outs_len)
      rw [hl] at ho
      exact ⟨Or.inl ⟨ho, he⟩, fun _ => ⟨ho, he⟩⟩

/-- Witness of C6, amended: the empty input with worker count -3. -/
theorem Run_empty_witness :
    scenario.schedEmpty.length ≤ (scenario.failPool (-3)).stepBound [] ∧
    (some [] : Option (List String)) = some [] ∧ (none : Option GoError) = none :=
  have h := Run_empty (scenario.failPool (-3)) () scenario.schedEmpty scenario.finalEmpty
    (by decide)
  ⟨h.1, (h.2.2.2.2 (some []) none rfl).2 rfl⟩

end Pool
end worker

namespace service
variable {W R : Type}

theorem bulkWork_err (s : Service W R) (w : W) (x : CreateTodoInput) :
    (s.bulkWork w x).1.2 = validateCreate x := by
  unfold Service.bulkWork
  split <;> simp_all

/-- C7. BulkCreate is all-or-nothing: when one or more items fail validation,
every execution of the pool takes at most `stepBound` steps and can always take a
further step and be continued until `Run` returns; once `Run` has returned `BulkCreate` returns,
and it returns a nil result and a non-nil error without a call of `CreateBatch`,
the repository being as it was before the call. -/
theorem BulkCreate_all_or_nothing (s : Service W R) (repo : R) (w0 : W)
    (inputs : List CreateTodoInput) (hbad : ∃ x ∈ inputs, validateCreate x ≠ none)
    (sched : List worker.Action) :
    (∀ st, s.pool.Run w0 inputs sched = some st →
      sched.length ≤ s.pool.stepBound inputs ∧
      (st.main.isReturned = false → worker.CanStep s.pool inputs st) ∧
      worker.Completes s.pool inputs st ∧
      (st.main.isReturned = true → (s.BulkCreate repo w0 inputs sched).isSome = true)) ∧
    ∀ res, s.BulkCreate repo w0 inputs sched = some res →
      res.todos = none ∧ res.err ≠ none ∧ res.batches = [] ∧ res.repo = repo := by
  have hne : ¬ inputs.length = 0 := by
    obtain ⟨x, hx, _⟩ := hbad
    intro h0
    rw [List.length_eq_zero.1 h0] at hx
    cases hx
  have hnil : ∀ st, s.pool.Run w0 inputs sched = some st →
      ∀ todos, st.main ≠ worker.MainPC.returned todos none := by
    intro st hst todos hm
    have hi : worker.Inv s.pool inputs (fun x y => y.2 = validateCreate x) st :=
      worker.Pool.inv_reachable (fun w x => bulkWork_err s w x) ⟨sched, hst⟩
    rcases hi.ret_ok todos none hm with ⟨e, _, _, he⟩ | ⟨e, _, _, he, _⟩ | ⟨_, _, _, hall⟩
    · cases he
    · cases he
    · obtain ⟨x, hx, hv⟩ := hbad
      obtain ⟨k, hk⟩ := worker.Pool.get_of_mem hx
      obtain ⟨x1, o, hx1, _, hq⟩ := hall k (worker.Pool.lt_of_get hk)
      rw [hk] at hx1
      cases hx1
      exact hv hq.symm
  constructor
  · intro st hst
    refine ⟨worker.Pool.run_bound hst, worker.Pool.can_step hst, worker.Pool.completes hst, ?_⟩
    intro hr
    unfold Service.BulkCreate
    rw [if_neg hne, hst]
    cases hm : st.main with
    | ranging => rw [hm] at hr; cases hr
    | handling r => rw [hm] at hr; cases hr
    | returned todos err =>
      cases err with
      | none => exact absurd hm (hnil st hst todos)
      | some e => simp [hm]
  · intro res hres
    unfold Service.BulkCreate at hres
    rw [if_neg hne] at hres
    split at hres
    · cases hres
    · rename_i st hst
      split at hres
      · cases hres
        exact ⟨rfl, by simp, rfl, rfl⟩
      · rename_i todos hm
        exact absurd hm (hnil st hst todos)
      · cases hres

/-- Witness of C7: the items of `TestBulkCreate_AllOrNothing` with 4 workers on an
empty in-memory repository, whose `List` is empty afterwards. -/
theorem BulkCreate_all_or_nothing_witness :
    (scenario.memoryService.BulkCreate memory.New 0 scenario.testItems scenario.schedTest).map
        (fun res => (res.err, res.repo.List)) =
      some (some (wrapValidation "title is required"), ([], none)) ∧
    (none : Option (List model.Todo)) = none ∧
    some (wrapValidation "title is required") ≠ none :=
  have h := (BulkCreate_all_or_nothing scenario.memoryService memory.New 0 scenario.testItems
    ⟨{ Title := "", Description := "invalid" }, by decide, by decide⟩ scenario.schedTest).2
    { todos := none, err := some (wrapValidation "title is required"), repo := memory.New,
      world := 2, poolRun := scenario.memoryService.pool.Run 0 scenario.testItems scenario.schedTest,
      batches := [] } rfl
  ⟨by decide, h.1, h.2.1⟩

/-- C8. On an empty list `BulkCreate` returns, under every schedule, a nil result
and the error that wraps `ErrValidation` with the message "items must not be
empty"; the pool is not run, no call of `CreateBatch` is made, and the world of
the clock and the ID generator and the repository are as before the call. -/
theorem BulkCreate_empty (s : Service W R) (repo : R) (w0 : W) (sched : List worker.Action) :
    s.BulkCreate repo w0 [] sched =
      some { todos := none, err := some (wrapValidation "items must not be empty"),
             repo := repo, world := w0, poolRun := none, batches := [] } ∧
    (wrapValidation "items must not be empty").Is ErrValidation = true ∧
    (wrapValidation "items must not be empty").Error =
      "validation error: items must not be empty" := by
  refine ⟨rfl, by decide, by decide⟩

end service
namespace worker
namespace Pool
variable {W I O : Type}

theorem one_get {l : List (WorkerPC I O)} {pc old : WorkerPC I O} {w : Nat}
    (h : l = [pc]) (hw : l[w]? = some old) : w = 0 ∧ old = pc := by
  subst h
  cases w with
  | zero => simp at hw; exact ⟨rfl, hw.symm⟩
  | succ w => simp at hw

theorem seqOk_congr {s u : State W I O} (pc : WorkerPC I O) (ht : u.taken = s.taken)
    (hd : u.disp = s.disp) (hc : u.calls = s.calls) (h : pc.seqOk s) : pc.seqOk u := by
  cases pc <;> simp only [WorkerPC.seqOk, ht, hd, hc] at h ⊢ <;> exact h

theorem seqOk_done {s u : State W I O} (pc : WorkerPC I O) (ht : u.taken = s.taken)
    (hd : ∀ i, u.disp ≠ DispPC.feeding i) (hc : u.calls = s.calls) (h : pc.seqOk s) :
    pc.seqOk u := by
  cases pc <;> simp only [WorkerPC.seqOk, ht, hc] at h ⊢
  · exact ⟨h.1, fun i hi => absurd hi (hd i)⟩
  · exact ⟨h.1, h.2.1, fun i hi => absurd hi (hd i)⟩
  · exact ⟨h.1, h.2.1, fun i hi => absurd hi (hd i)⟩
  · exact ⟨h.1, h.2.1, fun i hi => absurd hi (hd i)⟩
  · exact h

theorem seq_step {p : Pool W I O} {inputs : List I} {k : Nat}
    {xk : I} {e : GoError} (hk : inputs[k]? = some xk)
    (hfail : ∀ w, (p.Work w xk).1.2 = some e)
    (hbefore : ∀ i x, i < k → inputs[i]? = some x → ∀ w, (p.Work w x).1.2 = none)
    {s t : State W I O} {a : Action} (hi : Inv p inputs p.MayReturn s)
    (hs : SeqInv k e s) (h : p.step inputs s a = some t) : SeqInv k e t := by
  obtain ⟨⟨pc, hone, hpc⟩, hcs, hms, hfn, hfs⟩ := hs
  cases a with
  | recv w =>
    obtain ⟨i, x, hd, hw, hj, hx, rfl⟩ := step_recv h
    obtain ⟨rfl, rfl⟩ := one_get hone hw
    refine ⟨⟨WorkerPC.holding ⟨i, x⟩, by simp [hone], ?_⟩, hcs, hms, hfn, hfs⟩
    simp only [WorkerPC.seqOk] at hpc
    show i = s.taken ∧ s.calls.length = s.taken ∧
      ∀ i1, DispPC.feeding (i + 1) = DispPC.feeding i1 → i1 = s.taken + 1
    have := hpc.2 i hd
    exact ⟨this, hpc.1, fun i1 hi1 => by cases hi1; omega⟩
  | call w =>
    obtain ⟨j, hw, rfl⟩ := step_call h
    obtain ⟨rfl, rfl⟩ := one_get hone hw
    simp only [WorkerPC.seqOk] at hpc
    refine ⟨⟨WorkerPC.running j, by simp [hone], ?_⟩, ?_, hms, hfn, hfs⟩
    · show j.idx = s.taken ∧ (s.calls ++ [j]).length = s.taken + 1 ∧
        ∀ i, s.disp = DispPC.feeding i → i = s.taken + 1
      exact ⟨hpc.1, by simp [hpc.2.1], hpc.2.2⟩
    · simp only [List.map_append, List.length_append, List.length_singleton, List.range_succ, hcs,
        List.map_cons, List.map_nil]
      rw [hpc.1, hpc.2.1]
  | ret w =>
    obtain ⟨j, hw, rfl⟩ := step_ret h
    obtain ⟨rfl, rfl⟩ := one_get hone hw
    exact ⟨⟨WorkerPC.selecting ⟨j.idx, (p.Work s.world j.inp).1.1, (p.Work s.world j.inp).1.2⟩,
      by simp [hone], hpc⟩, hcs, hms, hfn, hfs⟩
  | send w =>
    obtain ⟨r, hw, hm, hrc, rfl⟩ := step_send h
    obtain ⟨rfl, rfl⟩ := one_get hone hw
    have ht : s.taken = s.received.length := by simp [State.taken, hm]
    simp only [WorkerPC.seqOk, ht] at hpc
    refine ⟨⟨WorkerPC.ranging, by simp [hone], ?_⟩, hcs, ?_, hfn, hfs⟩
    · show s.calls.length = s.received.length + 1 ∧
        ∀ i, s.disp = DispPC.feeding i → i = s.received.length + 1
      exact ⟨hpc.2.1, hpc.2.2⟩
    · intro r1 hr1
      cases hr1
      exact hpc.1
  | abort w =>
    obtain ⟨r, e0, hw, hce, rfl⟩ := step_abort h
    obtain ⟨rfl, rfl⟩ := one_get hone hw
    simp only [WorkerPC.seqOk] at hpc
    refine ⟨⟨WorkerPC.exited, by simp [hone], ?_⟩, hcs, hms, hfn, hfs⟩
    show s.taken ≤ s.calls.length
    omega
  | leave w =>
    obtain ⟨hw, hjc, rfl⟩ := step_leave h
    obtain ⟨rfl, rfl⟩ := one_get hone hw
    simp only [WorkerPC.seqOk] at hpc
    refine ⟨⟨WorkerPC.exited, by simp [hone], ?_⟩, hcs, hms, hfn, hfs⟩
    show s.taken ≤ s.calls.length
    omega
  | dispDone =>
    obtain ⟨i, e0, hd, hce, hil, rfl⟩ := step_dispDone h
    exact ⟨⟨pc, hone, seqOk_done (s := s) pc rfl (by simp) rfl hpc⟩, hcs, hms, hfn, hfs⟩
  | closeJobs =>
    obtain ⟨hd, rfl⟩ := step_closeJobs h
    exact ⟨⟨pc, hone, seqOk_done (s := s) pc rfl (by simp) rfl hpc⟩, hcs, hms, hfn, hfs⟩
  | join =>
    obtain ⟨hd, hall, rfl⟩ := step_join h
    exact ⟨⟨pc, hone, seqOk_done (s := s) pc rfl (by simp) rfl hpc⟩, hcs, hms, hfn, hfs⟩
  | closeResults =>
    obtain ⟨hd, rfl⟩ := step_closeResults h
    exact ⟨⟨pc, hone, seqOk_done (s := s) pc rfl (by simp) rfl hpc⟩, hcs, hms, hfn, hfs⟩
  | handle =>
    obtain ⟨r, hm, hcase⟩ := step_handle h
    have hidx := hms r hm
    obtain ⟨x, hx, w0, hq⟩ := hi.main_ok r hm
    have hrerr : r.err = (p.Work w0 x).1.2 := by rw [hq]
    have hpc1 : ∀ u : State W I O, u.disp = s.disp → u.calls = s.calls →
        u.main = MainPC.ranging → u.received = s.received ++ [r] → pc.seqOk u := by
      intro u h2 h3 h4 h5
      exact seqOk_congr (s := s) pc (by simp [State.taken, h4, h5, hm]) h2 h3 hpc
    rcases hcase with ⟨hre, hfe, rfl⟩ | ⟨hre, rfl⟩
    · have hv := hfn hfe
      have hvk : s.received.length = k := by
        rcases Nat.lt_or_ge s.received.length k with hlt | hge
        · rw [hidx] at hx
          exact absurd (hrerr.trans (hbefore _ x hlt hx w0)) hre
        · omega
      refine ⟨⟨pc, hone, hpc1 _ rfl rfl rfl rfl⟩, hcs, by simp, ?_, ?_⟩
      · intro h0
        exact absurd h0 hre
      · intro e1 he1
        simp only at he1
        rw [hidx, hvk, hk] at hx
        cases hx
        rw [hrerr, hfail w0] at he1
        cases he1
        simp [hvk]
    · refine ⟨⟨pc, hone, hpc1 _ rfl rfl rfl rfl⟩, hcs, by simp, ?_, ?_⟩
      · intro h0
        simp only at h0
        have hv := hfn h0
        have hrn : r.err = none := by
          rcases hre with hre | hre
          · exact hre
          · exact absurd h0 hre
        simp only [List.length_append, List.length_singleton]
        rcases Nat.lt_or_ge s.received.length k with hlt | hge
        · omega
        · have hvk : s.received.length = k := by omega
          rw [hidx, hvk, hk] at hx
          cases hx
          rw [hrerr, hfail w0] at hrn
          cases hrn
      · intro e1 he1
        have := hfs e1 he1
        simp only [List.length_append, List.length_singleton]
        exact ⟨this.1, by omega⟩
  | finish =>
    obtain ⟨hm, hrc, hcase⟩ := step_finish h
    rcases hcase with ⟨e0, _, rfl⟩ | ⟨e0, _, _, rfl⟩ | ⟨_, _, rfl⟩ <;>
      exact ⟨⟨pc, hone, seqOk_congr (s := s) pc (by simp [State.taken, hm]) rfl rfl hpc⟩, hcs, by simp,
        hfn, hfs⟩
  | parentCancel e0 =>
    obtain ⟨hpe, rfl⟩ := step_parentCancel h
    exact ⟨⟨pc, hone, seqOk_congr (s := s) pc rfl rfl rfl hpc⟩, hcs, hms, hfn, hfs⟩

theorem seq_init [Inhabited O] (p : Pool W I O) (hone : p.Workers ≤ 1) (w0 : W)
    (inputs : List I) (k : Nat) (e : GoError) : SeqInv k e (p.init w0 inputs) := by
  have hc : p.workerCount = 1 := by
    unfold workerCount
    split <;> omega
  refine ⟨⟨WorkerPC.ranging, by simp [init, hc], ?_⟩, by simp [init], by simp [init],
    by simp [init], by simp [init]⟩
  simp only [WorkerPC.seqOk, State.taken, init]
  exact ⟨rfl, fun i hi => by cases hi; rfl⟩

theorem seq_runFrom {p : Pool W I O} {inputs : List I} {k : Nat}
    {xk : I} {e : GoError} (hk : inputs[k]? = some xk)
    (hfail : ∀ w, (p.Work w xk).1.2 = some e)
    (hbefore : ∀ i x, i < k → inputs[i]? = some x → ∀ w, (p.Work w x).1.2 = none)
    (sched : List Action) :
    ∀ {s t : State W I O}, Inv p inputs p.MayReturn s → SeqInv k e s →
      p.runFrom inputs s sched = some t → SeqInv k e t := by
  induction sched with
  | nil =>
    intro s t _ hs h
    simp [runFrom] at h
    subst h
    exact hs
  | cons a sched ih =>
    intro s t hi hs h
    simp only [runFrom] at h
    split at h
    · rename_i u hu
      exact ih (inv_step (fun w _ => ⟨w, rfl⟩) hi hu)
        (seq_step hk hfail hbefore hi hs hu) h
    · cases h

theorem calls_le {inputs : List I} {calls : List (job I)}
    (hseq : calls.map (fun j => j.idx) = List.range calls.length)
    (hok : ∀ j ∈ calls, inputs[j.idx]? = some j.inp) : calls.length ≤ inputs.length := by
  rcases Nat.eq_zero_or_pos calls.length with h0 | hpos
  · omega
  · have hlast : (calls.map (fun j => j.idx))[calls.length - 1]? = some (calls.length - 1) := by
      rw [hseq, List.getElem?_range (by omega)]
    rw [List.getElem?_map] at hlast
    cases hj : calls[calls.length - 1]? with
    | none => rw [hj] at hlast; cases hlast
    | some j =>
      rw [hj] at hlast
      simp at hlast
      have := lt_of_get (hok j (List.getElem?_mem hj))
      omega

/-- Counterexample to C9 as stated: inputs ok, empty, ok with 1 worker, the work
function failing iff the input is empty. The worker hands the failure of index 1
to the collector and receives the job of index 2 before the collector has
cancelled; the work function is called on index 2 and `Run` returns the error
of index 1. -/
theorem Run_sequential_counterexample :
    ((scenario.failPool 1).Run () ["ok", "", "ok"] scenario.schedWasted).map
        (fun s => (s.main, s.calls.map (fun j => j.idx))) =
      some (MainPC.returned none (some scenario.errEmpty), [0, 1, 2]) ∧
    (scenario.failWork "").2 = some scenario.errEmpty := by
  decide

/-- C9, amended. A sequential pool: with worker count 1 and the caller's context
not cancelled, for every work function, stateful or not, that fails with `e` on
the input at index `k` and on no earlier input, whatever the world it is called
in, every execution of `Run` takes at most `stepBound` steps and can always take
a further step and be continued until `Run` returns; the work function is called
on the inputs in input order, once on each of the indices below the number of
calls, and `Run` returns the nil slice and the error `e` after the call on index
`k`. Calls on indices above `k` are not excluded. -/
theorem Run_sequential [Inhabited O] (p : Pool W I O) (hone : p.Workers ≤ 1)
    (inputs : List I) (k : Nat) (xk : I) (e : GoError) (hk : inputs[k]? = some xk)
    (hfail : ∀ w, (p.Work w xk).1.2 = some e)
    (hbefore : ∀ i x, i < k → inputs[i]? = some x → ∀ w, (p.Work w x).1.2 = none)
    (w0 : W) (sched : List Action) (s : State W I O)
    (hrun : p.Run w0 inputs sched = some s) (hctx : s.parentErr = none) :
    sched.length ≤ p.stepBound inputs ∧
    (s.main.isReturned = false → CanStep p inputs s) ∧
    Completes p inputs s ∧
    s.calls.map (fun j => j.idx) = List.range s.calls.length ∧
    s.calls.length ≤ inputs.length ∧
    (∀ j ∈ s.calls, inputs[j.idx]? = some j.inp) ∧
    ∀ outs err, s.main = MainPC.returned outs err →
      outs = none ∧ err = some e ∧ k < s.calls.length := by
  have hi : Inv p inputs p.MayReturn s := inv_may hrun
  have hs : SeqInv k e s :=
    seq_runFrom hk hfail hbefore sched (inv_init p w0 inputs _) (seq_init p hone w0 inputs k e)
      hrun
  refine ⟨run_bound hrun, can_step hrun, completes hrun, hs.calls_seq, calls_le hs.calls_seq hi.calls_ok,
    hi.calls_ok, ?_⟩
  intro outs err hret
  rcases ret_general hrun hret with ⟨e1, hf, _, ho, he, _⟩ | ⟨e1, _, _, _, _, hp⟩ |
    ⟨_, _, l, _, _, hall⟩
  · obtain ⟨h1, h2⟩ := hs.first_some e1 hf
    refine ⟨ho, by rw [he, h1], ?_⟩
    obtain ⟨pc, _, hpc⟩ := hs.one
    have ht : s.taken = s.received.length := by simp [State.taken, hret]
    cases pc <;> simp only [WorkerPC.seqOk, ht] at hpc <;> omega
  · rw [hctx] at hp
    cases hp
  · obtain ⟨o, _, w, hw⟩ := hall k xk hk
    have := hfail w
    rw [hw] at this
    cases this

/-- Witness of C9, amended: inputs ok, empty, ok with 1 worker; each outcome is
collected before the next job is handed out. -/
theorem Run_sequential_witness :
    [0, 1] = List.range 2 ∧
    (none : Option (List String)) = none ∧ some scenario.errEmpty = some scenario.errEmpty ∧
    1 < 2 :=
  have h := Run_sequential (scenario.failPool 1) (by decide)
    ["ok", "", "ok"] 1 "" scenario.errEmpty rfl (fun _ => rfl)
    (by
      intro i x hi hx w
      rcases i with _ | i
      · cases hx; rfl
      · omega)
    () scenario.schedSequential _ rfl rfl
  ⟨h.2.2.2.1, h.2.2.2.2.2.2 none (some scenario.errEmpty) rfl⟩

end Pool
end worker
namespace worker
namespace Pool
variable {W I O : Type}

theorem sum_map_set (g : WorkerPC I O → Nat) {l : List (WorkerPC I O)} {w : Nat}
    {old : WorkerPC I O} (new : WorkerPC I O) (h : l[w]? = some old) :
    ((l.set w new).map g).sum + g old = (l.map g).sum + g new := by
  induction l generalizing w with
  | nil => simp at h
  | cons a l ih =>
    cases w with
    | zero =>
      simp at h
      subst h
      simp only [List.set, List.map_cons, List.sum_cons]
      omega
    | succ w =>
      simp at h
      have := ih h
      simp only [List.set, List.map_cons, List.sum_cons]
      omega

theorem ctx_step {p : Pool W I O} {inputs : List I} {s t : State W I O} {a : Action}
    (h : p.step inputs s a = some t) (hc : s.ctxErr ≠ none) : t.ctxErr ≠ none := by
  cases a with
  | recv w => obtain ⟨i, x, _, _, _, _, rfl⟩ := step_recv h; exact hc
  | call w => obtain ⟨j, _, rfl⟩ := step_call h; exact hc
  | ret w => obtain ⟨j, _, rfl⟩ := step_ret h; exact hc
  | send w => obtain ⟨r, _, _, _, rfl⟩ := step_send h; exact hc
  | abort w => obtain ⟨r, e, _, _, rfl⟩ := step_abort h; exact hc
  | leave w => obtain ⟨_, _, rfl⟩ := step_leave h; exact hc
  | dispDone => obtain ⟨i, e, _, _, _, rfl⟩ := step_dispDone h; exact hc
  | closeJobs => obtain ⟨_, rfl⟩ := step_closeJobs h; exact hc
  | join => obtain ⟨_, _, rfl⟩ := step_join h; exact hc
  | closeResults => obtain ⟨_, rfl⟩ := step_closeResults h; exact hc
  | handle =>
    obtain ⟨r, _, hcase⟩ := step_handle h
    rcases hcase with ⟨_, _, rfl⟩ | ⟨_, rfl⟩
    · exact cancel_ne_none _
    · exact hc
  | finish =>
    obtain ⟨_, _, hcase⟩ := step_finish h
    rcases hcase with ⟨e, _, rfl⟩ | ⟨e, _, _, rfl⟩ | ⟨_, _, rfl⟩ <;> exact cancel_ne_none _
  | parentCancel e =>
    obtain ⟨_, rfl⟩ := step_parentCancel h
    cases hs : s.ctxErr with
    | none => exact absurd hs hc
    | some e0 => simp [hs]

theorem held_step {p : Pool W I O} {inputs : List I} {s t : State W I O} {a : Action}
    (h : p.step inputs s a = some t) (hr : ∀ w, a ≠ Action.recv w) :
    t.calls.length + t.held = s.calls.length + s.held := by
  cases a with
  | recv w => exact absurd rfl (hr w)
  | call w =>
    obtain ⟨j, hw, rfl⟩ := step_call h
    have := sum_map_set WorkerPC.pending (WorkerPC.running j) hw
    have e1 : (WorkerPC.holding j : WorkerPC I O).pending = 1 := rfl
    have e2 : (WorkerPC.running j : WorkerPC I O).pending = 0 := rfl
    rw [e1, e2] at this
    simp only [State.held, List.length_append, List.length_singleton]
    omega
  | ret w =>
    obtain ⟨j, hw, rfl⟩ := step_ret h
    have := sum_map_set WorkerPC.pending (WorkerPC.selecting
      ⟨j.idx, (p.Work s.world j.inp).1.1, (p.Work s.world j.inp).1.2⟩) hw
    have e1 : (WorkerPC.running j : WorkerPC I O).pending = 0 := rfl
    have e2 : (WorkerPC.selecting ⟨j.idx, (p.Work s.world j.inp).1.1,
      (p.Work s.world j.inp).1.2⟩ : WorkerPC I O).pending = 0 := rfl
    rw [e1, e2] at this
    simp only [State.held]
    omega
  | send w =>
    obtain ⟨r, hw, _, _, rfl⟩ := step_send h
    have := sum_map_set WorkerPC.pending WorkerPC.ranging hw
    have e1 : (WorkerPC.selecting r : WorkerPC I O).pending = 0 := rfl
    have e2 : (WorkerPC.ranging : WorkerPC I O).pending = 0 := rfl
    rw [e1, e2] at this
    simp only [State.held]
    omega
  | abort w =>
    obtain ⟨r, e, hw, _, rfl⟩ := step_abort h
    have := sum_map_set WorkerPC.pending WorkerPC.exited hw
    have e1 : (WorkerPC.selecting r : WorkerPC I O).pending = 0 := rfl
    have e2 : (WorkerPC.exited : WorkerPC I O).pending = 0 := rfl
    rw [e1, e2] at this
    simp only [State.held]
    omega
  | leave w =>
    obtain ⟨hw, _, rfl⟩ := step_leave h
    have := sum_map_set WorkerPC.pending WorkerPC.exited hw
    have e1 : (WorkerPC.ranging : WorkerPC I O).pending = 0 := rfl
    have e2 : (WorkerPC.exited : WorkerPC I O).pending = 0 := rfl
    rw [e1, e2] at this
    simp only [State.held]
    omega
  | dispDone => obtain ⟨i, e, _, _, _, rfl⟩ := step_dispDone h; rfl
  | closeJobs => obtain ⟨_, rfl⟩ := step_closeJobs h; rfl
  | join => obtain ⟨_, _, rfl⟩ := step_join h; rfl
  | closeResults => obtain ⟨_, rfl⟩ := step_closeResults h; rfl
  | handle =>
    obtain ⟨r, _, hcase⟩ := step_handle h
    rcases hcase with ⟨_, _, rfl⟩ | ⟨_, rfl⟩ <;> rfl
  | finish =>
    obtain ⟨_, _, hcase⟩ := step_finish h
    rcases hcase with ⟨e, _, rfl⟩ | ⟨e, _, _, rfl⟩ | ⟨_, _, rfl⟩ <;> rfl
  | parentCancel e => obtain ⟨_, rfl⟩ := step_parentCancel h; rfl

theorem nofeed_step {p : Pool W I O} {inputs : List I} {s t : State W I O} {a : Action}
    (h : p.step inputs s a = some t) (hd : ∀ i, s.disp ≠ DispPC.feeding i) :
    (∀ w, a ≠ Action.recv w) ∧ ∀ i, t.disp ≠ DispPC.feeding i := by
  cases a with
  | recv w => obtain ⟨i, x, hi, _⟩ := step_recv h; exact absurd hi (hd i)
  | call w => obtain ⟨j, _, rfl⟩ := step_call h; exact ⟨by simp, hd⟩
  | ret w => obtain ⟨j, _, rfl⟩ := step_ret h; exact ⟨by simp, hd⟩
  | send w => obtain ⟨r, _, _, _, rfl⟩ := step_send h; exact ⟨by simp, hd⟩
  | abort w => obtain ⟨r, e, _, _, rfl⟩ := step_abort h; exact ⟨by simp, hd⟩
  | leave w => obtain ⟨_, _, rfl⟩ := step_leave h; exact ⟨by simp, hd⟩
  | dispDone => obtain ⟨i, e, _, _, _, rfl⟩ := step_dispDone h; exact ⟨by simp, by simp⟩
  | closeJobs => obtain ⟨_, rfl⟩ := step_closeJobs h; exact ⟨by simp, by simp⟩
  | join => obtain ⟨_, _, rfl⟩ := step_join h; exact ⟨by simp, by simp⟩
  | closeResults => obtain ⟨_, rfl⟩ := step_closeResults h; exact ⟨by simp, by simp⟩
  | handle =>
    obtain ⟨r, _, hcase⟩ := step_handle h
    rcases hcase with ⟨_, _, rfl⟩ | ⟨_, rfl⟩ <;> exact ⟨by simp, hd⟩
  | finish =>
    obtain ⟨_, _, hcase⟩ := step_finish h
    rcases hcase with ⟨e, _, rfl⟩ | ⟨e, _, _, rfl⟩ | ⟨_, _, rfl⟩ <;> exact ⟨by simp, hd⟩
  | parentCancel e => obtain ⟨_, rfl⟩ := step_parentCancel h; exact ⟨by simp, hd⟩

theorem set_other {l : List (WorkerPC I O)} {w v : Nat} {old : WorkerPC I O}
    (new : WorkerPC I O) (hw : l[w]? = some WorkerPC.exited) (hv : l[v]? = some old)
    (hne : old ≠ WorkerPC.exited) : (l.set v new)[w]? = some WorkerPC.exited ∧ v ≠ w := by
  have hvw : v ≠ w := by
    rintro rfl
    rw [hw] at hv
    exact hne (Option.some.inj hv).symm
  exact ⟨by rw [List.getElem?_set_ne hvw]; exact hw, hvw⟩

theorem exited_step {p : Pool W I O} {inputs : List I} {s t : State W I O} {a : Action} {w : Nat}
    (h : p.step inputs s a = some t) (hw : s.workers[w]? = some WorkerPC.exited) :
    t.workers[w]? = some WorkerPC.exited ∧ a ≠ Action.recv w ∧ a ≠ Action.call w := by
  cases a with
  | recv v =>
    obtain ⟨i, x, _, hv, _, _, rfl⟩ := step_recv h
    obtain ⟨h1, h2⟩ := set_other (WorkerPC.holding ⟨i, x⟩) hw hv (by simp)
    exact ⟨h1, by simpa using h2, by simp⟩
  | call v =>
    obtain ⟨j, hv, rfl⟩ := step_call h
    obtain ⟨h1, h2⟩ := set_other (WorkerPC.running j) hw hv (by simp)
    exact ⟨h1, by simp, by simpa using h2⟩
  | ret v =>
    obtain ⟨j, hv, rfl⟩ := step_ret h
    obtain ⟨h1, _⟩ := set_other (WorkerPC.selecting
      ⟨j.idx, (p.Work s.world j.inp).1.1, (p.Work s.world j.inp).1.2⟩) hw hv (by simp)
    exact ⟨h1, by simp, by simp⟩
  | send v =>
    obtain ⟨r, hv, _, _, rfl⟩ := step_send h
    obtain ⟨h1, _⟩ := set_other WorkerPC.ranging hw hv (by simp)
    exact ⟨h1, by simp, by simp⟩
  | abort v =>
    obtain ⟨r, e, hv, _, rfl⟩ := step_abort h
    obtain ⟨h1, _⟩ := set_other WorkerPC.exited hw hv (by simp)
    exact ⟨h1, by simp, by simp⟩
  | leave v =>
    obtain ⟨hv, _, rfl⟩ := step_leave h
    obtain ⟨h1, _⟩ := set_other WorkerPC.exited hw hv (by simp)
    exact ⟨h1, by simp, by simp⟩
  | dispDone => obtain ⟨i, e, _, _, _, rfl⟩ := step_dispDone h; exact ⟨hw, by simp, by simp⟩
  | closeJobs => obtain ⟨_, rfl⟩ := step_closeJobs h; exact ⟨hw, by simp, by simp⟩
  | join => obtain ⟨_, _, rfl⟩ := step_join h; exact ⟨hw, by simp, by simp⟩
  | closeResults => obtain ⟨_, rfl⟩ := step_closeResults h; exact ⟨hw, by simp, by simp⟩
  | handle =>
    obtain ⟨r, _, hcase⟩ := step_handle h
    rcases hcase with ⟨_, _, rfl⟩ | ⟨_, rfl⟩ <;> exact ⟨hw, by simp, by simp⟩
  | finish =>
    obtain ⟨_, _, hcase⟩ := step_finish h
    rcases hcase with ⟨e, _, rfl⟩ | ⟨e, _, _, rfl⟩ | ⟨_, _, rfl⟩ <;>
      exact ⟨hw, by simp, by simp⟩
  | parentCancel e => obtain ⟨_, rfl⟩ := step_parentCancel h; exact ⟨hw, by simp, by simp⟩

theorem runFrom_cons {p : Pool W I O} {inputs : List I} {s t : State W I O} {a : Action}
    {rest : List Action} (h : p.runFrom inputs s (a :: rest) = some t) :
    ∃ u, p.step inputs s a = some u ∧ p.runFrom inputs u rest = some t := by
  simp only [runFrom] at h
  split at h
  · exact ⟨_, ‹_›, h⟩
  · cases h

theorem ctx_runFrom {p : Pool W I O} {inputs : List I} (rest : List Action) :
    ∀ {s t : State W I O}, p.runFrom inputs s rest = some t → s.ctxErr ≠ none →
      t.ctxErr ≠ none := by
  induction rest with
  | nil =>
    intro s t h hc
    simp [runFrom] at h
    subst h
    exact hc
  | cons a rest ih =>
    intro s t h hc
    obtain ⟨u, hu, hr⟩ := runFrom_cons h
    exact ih hr (ctx_step hu hc)

theorem nofeed_runFrom {p : Pool W I O} {inputs : List I} (rest : List Action) :
    ∀ {s t : State W I O}, p.runFrom inputs s rest = some t →
      (∀ i, s.disp ≠ DispPC.feeding i) →
      (∀ w, Action.recv w ∉ rest) ∧ (∀ i, t.disp ≠ DispPC.feeding i) ∧
        t.calls.length + t.held = s.calls.length + s.held := by
  induction rest with
  | nil =>
    intro s t h hd
    simp [runFrom] at h
    subst h
    exact ⟨by simp, hd, rfl⟩
  | cons a rest ih =>
    intro s t h hd
    obtain ⟨u, hu, hr⟩ := runFrom_cons h
    obtain ⟨h1, h2⟩ := nofeed_step hu hd
    obtain ⟨h3, h4, h5⟩ := ih hr h2
    refine ⟨?_, h4, by rw [h5, held_step hu h1]⟩
    intro w hm
    rcases List.mem_cons.1 hm with h0 | h0
    · exact h1 w h0.symm
    · exact h3 w h0

theorem exited_runFrom {p : Pool W I O} {inputs : List I} {w : Nat} (rest : List Action) :
    ∀ {s t : State W I O}, p.runFrom inputs s rest = some t →
      s.workers[w]? = some WorkerPC.exited →
      t.workers[w]? = some WorkerPC.exited ∧ Action.recv w ∉ rest ∧ Action.call w ∉ rest := by
  induction rest with
  | nil =>
    intro s t h hw
    simp [runFrom] at h
    subst h
    exact ⟨hw, by simp, by simp⟩
  | cons a rest ih =>
    intro s t h hw
    obtain ⟨u, hu, hr⟩ := runFrom_cons h
    obtain ⟨h1, h2, h3⟩ := exited_step hu hw
    obtain ⟨h4, h5, h6⟩ := ih hr h1
    refine ⟨h4, ?_, ?_⟩
    · intro hm
      rcases List.mem_cons.1 hm with h0 | h0
      · exact h2 h0.symm
      · exact h5 h0
    · intro hm
      rcases List.mem_cons.1 hm with h0 | h0
      · exact h3 h0.symm
      · exact h6 h0

/-- Counterexample to C10 as stated: inputs empty, b, c, d with 2 workers, the
work function failing iff the input is empty. After the collector has handled
the failure of index 0 and cancelled, the second worker calls the work function
on the job of index 1 it holds, publishes the outcome although cancellation has
fired, receives the job of index 2 from the dispatcher and calls the work
function on it. -/
theorem Run_after_cancel_counterexample :
    ((scenario.failPool 2).Run () ["", "b", "c", "d"] scenario.schedCancelled).map
        (fun s => (s.firstErr, s.ctxErr, s.disp, s.calls.map (fun j => j.idx))) =
      some (some scenario.errEmpty, some context.Canceled, DispPC.feeding 2, [0]) ∧
    ((scenario.failPool 2).Run () ["", "b", "c", "d"]
        (scenario.schedCancelled ++ scenario.schedAfterCancel)).map
        (fun s => (s.disp, s.calls.map (fun j => j.idx), s.workers)) =
      some (DispPC.feeding 3, [0, 1, 2],
        [WorkerPC.ranging, WorkerPC.running ⟨2, "c"⟩]) := by
  decide

/-- C10, amended. After a failure: in every state `s` an execution of `Run`
reaches and every state `t` it reaches from `s`, the collector has cancelled once
it has recorded an error, and a cancellation stays; while cancelled, the
cancellation branch of the dispatcher is enabled at each of its selects; once the
dispatcher has left its loop it never hands out a job again, and the calls of the
work function made from then on are those on the jobs workers already hold; a
worker that takes the cancellation branch of its select has returned, and a
worker that has returned receives no job and makes no call. Jobs handed out and
calls begun after the cancellation and before the dispatcher leaves its loop are
not excluded. -/
theorem Run_after_cancel [Inhabited O] (p : Pool W I O) (w0 : W) (inputs : List I)
    (sched : List Action) (s : State W I O) (hrun : p.Run w0 inputs sched = some s)
    (rest : List Action) (t : State W I O) (hrest : p.runFrom inputs s rest = some t) :
    (s.firstErr ≠ none → s.ctxErr ≠ none) ∧
    (s.ctxErr ≠ none → t.ctxErr ≠ none) ∧
    (s.ctxErr ≠ none → ∀ i, s.disp = DispPC.feeding i → i < inputs.length →
      (p.step inputs s Action.dispDone).isSome = true) ∧
    ((∀ i, s.disp ≠ DispPC.feeding i) →
      (∀ w, Action.recv w ∉ rest) ∧ (∀ i, t.disp ≠ DispPC.feeding i) ∧
      t.calls.length + t.held = s.calls.length + s.held) ∧
    (∀ w u, p.step inputs s (Action.abort w) = some u →
      u.workers[w]? = some WorkerPC.exited) ∧
    (∀ w, s.workers[w]? = some WorkerPC.exited →
      t.workers[w]? = some WorkerPC.exited ∧ Action.recv w ∉ rest ∧ Action.call w ∉ rest) := by
  have hi : Inv p inputs (fun _ _ => True) s :=
    inv_reachable (fun _ _ => trivial) ⟨sched, hrun⟩
  refine ⟨hi.first_cancel, ctx_runFrom rest hrest, ?_, nofeed_runFrom rest hrest, ?_,
    fun w hw => exited_runFrom rest hrest hw⟩
  · intro hc i hd hil
    cases hce : s.ctxErr with
    | none => exact absurd hce hc
    | some e => simp [step, hd, hce, hil]
  · intro w u hu
    obtain ⟨r, e, hw, _, rfl⟩ := step_abort hu
    have := lt_of_get hw
    simp [List.getElem?_set, this]

/-- Witness of C10, amended: inputs empty, b, c, d with 2 workers; after the
collector has cancelled and the dispatcher has taken its cancellation branch,
the second worker runs the job it holds and everything shuts down. -/
theorem Run_after_cancel_witness :
    (2 : Nat) + 0 = 1 + 1 ∧ some context.Canceled ≠ none :=
  have h := Run_after_cancel (scenario.failPool 2) () ["", "b", "c", "d"]
    (scenario.schedCancelled ++ [Action.dispDone]) _ rfl scenario.schedShutdown _ rfl
  ⟨(h.2.2.2.1 (fun i hd => by cases hd)).2.2, h.2.1 (fun hc => by cases hc)⟩

end Pool
end worker
namespace memory

theorem lookup_store (items : List (uuid.UUID × model.Todo)) (id : uuid.UUID)
    (todo : model.Todo) (id1 : uuid.UUID) :
    lookup (store items id todo) id1 = if id = id1 then some todo else lookup items id1 := by
  induction items with
  | nil => simp [store, lookup]
  | cons kv rest ih =>
    obtain ⟨k, v⟩ := kv
    simp only [store]
    by_cases hk : k = id
    · subst hk
      simp only [if_true, lookup]
      by_cases h1 : k = id1 <;> simp [h1]
    · simp only [if_neg hk, lookup, ih]
      by_cases h1 : k = id1
      · subst h1
        simp [Ne.symm hk]
      · simp [h1]

theorem store_absent (items : List (uuid.UUID × model.Todo)) (id : uuid.UUID)
    (todo : model.Todo) (h : lookup items id = none) :
    store items id todo = items ++ [(id, todo)] := by
  induction items with
  | nil => rfl
  | cons kv rest ih =>
    obtain ⟨k, v⟩ := kv
    simp only [lookup] at h
    by_cases hk : k = id
    · simp [hk] at h
    · simp only [if_neg hk] at h
      simp only [store, if_neg hk, ih h, List.cons_append]

theorem foldl_store (todos : List model.Todo) :
    ∀ items : List (uuid.UUID × model.Todo),
      (∀ todo ∈ todos, lookup items todo.ID = none) →
      (todos.map (fun todo => todo.ID)).Nodup →
      todos.foldl (fun items todo => store items todo.ID todo) items =
        items ++ todos.map (fun todo => (todo.ID, todo)) := by
  induction todos with
  | nil => intro items _ _; simp
  | cons t rest ih =>
    intro items habs hnd
    simp only [List.map_cons, List.nodup_cons] at hnd
    simp only [List.foldl_cons, List.map_cons]
    rw [store_absent items t.ID t (habs t (List.mem_cons_self _ _))]
    rw [ih _ ?_ hnd.2]
    · simp
    · intro todo hm
      rw [← store_absent items t.ID t (habs t (List.mem_cons_self _ _)), lookup_store]
      have hne : t.ID ≠ todo.ID := by
        intro heq
        exact hnd.1 (List.mem_map.2 ⟨todo, hm, heq.symm⟩)
      rw [if_neg hne]
      exact habs todo (List.mem_cons_of_mem _ hm)

theorem lookup_append (items more : List (uuid.UUID × model.Todo)) (id : uuid.UUID) :
    lookup (items ++ more) id =
      match lookup items id with
      | some v => some v
      | none => lookup more id := by
  induction items with
  | nil => simp [lookup]
  | cons kv rest ih =>
    obtain ⟨k, v⟩ := kv
    simp only [List.cons_append, lookup]
    by_cases hk : k = id
    · simp [hk]
    · simp only [if_neg hk]
      exact ih

theorem lookup_batch (todos : List model.Todo) (id : uuid.UUID) :
    (∀ todo ∈ todos, todo.ID ≠ id) →
      lookup (todos.map (fun todo => (todo.ID, todo))) id = none := by
  induction todos with
  | nil => intro _; rfl
  | cons t rest ih =>
    intro h
    simp only [List.map_cons, lookup]
    rw [if_neg (h t (List.mem_cons_self _ _))]
    exact ih (fun todo hm => h todo (List.mem_cons_of_mem _ hm))

theorem lookup_batch_mem (todos : List model.Todo) :
    (todos.map (fun todo => todo.ID)).Nodup → ∀ todo ∈ todos,
      lookup (todos.map (fun todo => (todo.ID, todo))) todo.ID = some todo := by
  induction todos with
  | nil => intro _ todo hm; cases hm
  | cons t rest ih =>
    intro hnd todo hm
    simp only [List.map_cons, List.nodup_cons] at hnd
    simp only [List.map_cons, lookup]
    rcases List.mem_cons.1 hm with h0 | h0
    · subst h0
      simp
    · have hne : t.ID ≠ todo.ID := by
        intro heq
        exact hnd.1 (List.mem_map.2 ⟨todo, h0, heq.symm⟩)
      rw [if_neg hne]
      exact ih hnd.2 todo h0

/-- C15, at the failing input: the batch of two different todos with the same ID,
none stored before, on the empty repository. `CreateBatch` returns nil, and
afterwards the repository holds one item and `Get` by that ID returns the second
todo, not the first: one of the two records is persisted, neither all nor none.
`Create` of the same two todos one after the other refuses the second with
`ErrConflict` and keeps the first. -/
theorem CreateBatch_repeated_id :
    (New.CreateBatch scenario.errConflict [scenario.todoA, scenario.todoB]).1 = none ∧
    (New.CreateBatch scenario.errConflict [scenario.todoA, scenario.todoB]).2.items.length = 1 ∧
    ((New.CreateBatch scenario.errConflict [scenario.todoA, scenario.todoB]).2.Get
        scenario.errNotFound scenario.todoA.ID) = (scenario.todoB, none) ∧
    scenario.todoA ≠ scenario.todoB ∧
    scenario.todoA.ID = scenario.todoB.ID ∧
    (New.Create scenario.errConflict scenario.todoA).1 = none ∧
    (New.Create scenario.errConflict scenario.todoA).2.Create scenario.errConflict scenario.todoB =
      (some scenario.errConflict, { items := [(1, scenario.todoA)] }) := by
  decide

/-- What `CreateBatch` of the in-memory repository does on the other batches:
when the ID of one or more todos of the batch is already stored it returns
`ErrConflict` and the repository is unchanged; when none is stored it returns
nil; and when moreover the IDs of the batch are pairwise distinct the stored
items are afterwards the previous ones followed by every todo of the batch, each
todo of the batch is returned by `Get` with its ID, and `Get` with any other ID
returns what it returned before. -/
theorem CreateBatch_all_or_none (ErrConflict ErrNotFound : GoError) (r : Repo)
    (todos : List model.Todo) :
    ((∃ todo ∈ todos, (lookup r.items todo.ID).isSome = true) →
      r.CreateBatch ErrConflict todos = (some ErrConflict, r)) ∧
    ((∀ todo ∈ todos, lookup r.items todo.ID = none) →
      (r.CreateBatch ErrConflict todos).1 = none) ∧
    ((∀ todo ∈ todos, lookup r.items todo.ID = none) →
      (todos.map (fun todo => todo.ID)).Nodup →
      ∃ r1, r.CreateBatch ErrConflict todos = (none, r1) ∧
        r1.items = r.items ++ todos.map (fun todo => (todo.ID, todo)) ∧
        (∀ todo ∈ todos, r1.Get ErrNotFound todo.ID = (todo, none)) ∧
        ∀ id, (∀ todo ∈ todos, todo.ID ≠ id) → r1.Get ErrNotFound id = r.Get ErrNotFound id) := by
  have hany : (∀ todo ∈ todos, lookup r.items todo.ID = none) →
      ¬ todos.any (fun todo => (lookup r.items todo.ID).isSome) = true := by
    intro habs h
    obtain ⟨todo, hm, hs⟩ := List.any_eq_true.1 h
    rw [habs todo hm] at hs
    cases hs
  refine ⟨?_, ?_, ?_⟩
  · rintro ⟨todo, hm, hs⟩
    unfold Repo.CreateBatch
    rw [if_pos (List.any_eq_true.2 ⟨todo, hm, hs⟩)]
  · intro habs
    unfold Repo.CreateBatch
    rw [if_neg (hany habs)]
  · intro habs hnd
    refine ⟨{ items := r.items ++ todos.map (fun todo => (todo.ID, todo)) }, ?_, rfl, ?_, ?_⟩
    · unfold Repo.CreateBatch
      rw [if_neg (hany habs), foldl_store todos r.items habs hnd]
    · intro todo hm
      simp only [Repo.Get, lookup_append, habs todo hm, lookup_batch_mem todos hnd todo hm]
    · intro id hid
      simp only [Repo.Get, lookup_append, lookup_batch todos id hid]
      cases lookup r.items id <;> rfl

/-- The batch of the todos with IDs 1 and 2 on the empty repository, and the batch
of the todo with ID 1 on the repository that stores it. -/
theorem CreateBatch_all_or_none_witness :
    (Repo.CreateBatch scenario.errConflict { items := [(1, scenario.todoA)] } [scenario.todoB] =
      (some scenario.errConflict, { items := [(1, scenario.todoA)] })) ∧
    (New.CreateBatch scenario.errConflict [scenario.todoA, scenario.todoC]).1 = none ∧
    (New.CreateBatch scenario.errConflict [scenario.todoA, scenario.todoC]).2.items =
      [(1, scenario.todoA), (2, scenario.todoC)] :=
  ⟨(CreateBatch_all_or_none scenario.errConflict scenario.errNotFound
      { items := [(1, scenario.todoA)] } [scenario.todoB]).1 ⟨scenario.todoB, by decide, by decide⟩,
   by
    obtain ⟨r1, h1, h2, _⟩ := (CreateBatch_all_or_none scenario.errConflict scenario.errNotFound
      New [scenario.todoA, scenario.todoC]).2.2 (by decide) (by decide)
    rw [h1]
    exact ⟨rfl, h2⟩⟩

end memory
namespace worker
namespace Pool
variable {W I O : Type}

theorem workerCount_eq_max (p : Pool W I O) : p.workerCount = (max 1 p.Workers).toNat := by
  unfold workerCount
  split
  · rw [max_eq_left (by omega)]
  · rw [max_eq_right (by omega)]

/-- C14. Bounded concurrency: `Run` starts exactly `max(1, Workers)` workers, and
in every state of every execution there are that many workers and at most that
many calls of the work function in progress, whatever the inputs. -/
theorem Run_bounded_concurrency [Inhabited O] (p : Pool W I O) (w0 : W) (inputs : List I)
    (sched : List Action) (s : State W I O) (hrun : p.Run w0 inputs sched = some s) :
    (p.init w0 inputs).workers.length = (max 1 p.Workers).toNat ∧
    s.workers.length = (max 1 p.Workers).toNat ∧
    s.inProgress ≤ (max 1 p.Workers).toNat := by
  have hi : Inv p inputs (fun _ _ => True) s :=
    inv_reachable (fun _ _ => trivial) ⟨sched, hrun⟩
  have hl : s.workers.length = (max 1 p.Workers).toNat := by
    rw [hi.workers_len, workerCount_eq_max]
  refine ⟨by simp [init, workerCount_eq_max], hl, ?_⟩
  rw [← hl]
  exact List.countP_le_length _

/-- Witness of C14: the upper-case pool with 2 workers on a, b, c, both workers
inside the work function. -/
theorem Run_bounded_concurrency_witness :
    (2 : Nat) = (max 1 (2 : Int)).toNat ∧ (2 : Nat) ≤ (max 1 (2 : Int)).toNat :=
  have h := Run_bounded_concurrency scenario.upperPool () ["a", "b", "c"]
    [Action.recv 0, Action.recv 1, Action.call 0, Action.call 1] _ rfl
  ⟨h.2.1, h.2.2⟩

theorem quiet_step {p : Pool W I O} {inputs : List I} {s t : State W I O} {a : Action}
    (h : p.step inputs s a = some t) (hq : ∀ pc ∈ s.workers, pc = WorkerPC.exited) :
    t.calls = s.calls ∧ t.workers = s.workers := by
  cases a with
  | recv w =>
    obtain ⟨i, x, _, hw, _⟩ := step_recv h
    have := hq _ (List.getElem?_mem hw)
    cases this
  | call w =>
    obtain ⟨j, hw, _⟩ := step_call h
    have := hq _ (List.getElem?_mem hw)
    cases this
  | ret w =>
    obtain ⟨j, hw, _⟩ := step_ret h
    have := hq _ (List.getElem?_mem hw)
    cases this
  | send w =>
    obtain ⟨r, hw, _⟩ := step_send h
    have := hq _ (List.getElem?_mem hw)
    cases this
  | abort w =>
    obtain ⟨r, e, hw, _⟩ := step_abort h
    have := hq _ (List.getElem?_mem hw)
    cases this
  | leave w =>
    obtain ⟨hw, _⟩ := step_leave h
    have := hq _ (List.getElem?_mem hw)
    cases this
  | dispDone => obtain ⟨i, e, _, _, _, rfl⟩ := step_dispDone h; exact ⟨rfl, rfl⟩
  | closeJobs => obtain ⟨_, rfl⟩ := step_closeJobs h; exact ⟨rfl, rfl⟩
  | join => obtain ⟨_, _, rfl⟩ := step_join h; exact ⟨rfl, rfl⟩
  | closeResults => obtain ⟨_, rfl⟩ := step_closeResults h; exact ⟨rfl, rfl⟩
  | handle =>
    obtain ⟨r, _, hcase⟩ := step_handle h
    rcases hcase with ⟨_, _, rfl⟩ | ⟨_, rfl⟩ <;> exact ⟨rfl, rfl⟩
  | finish =>
    obtain ⟨_, _, hcase⟩ := step_finish h
    rcases hcase with ⟨e, _, rfl⟩ | ⟨e, _, _, rfl⟩ | ⟨_, _, rfl⟩ <;> exact ⟨rfl, rfl⟩
  | parentCancel e => obtain ⟨_, rfl⟩ := step_parentCancel h; exact ⟨rfl, rfl⟩

theorem quiet_runFrom {p : Pool W I O} {inputs : List I} (rest : List Action) :
    ∀ {s t : State W I O}, p.runFrom inputs s rest = some t →
      (∀ pc ∈ s.workers, pc = WorkerPC.exited) → t.calls = s.calls ∧ t.workers = s.workers := by
  induction rest with
  | nil =>
    intro s t h _
    simp [runFrom] at h
    subst h
    exact ⟨rfl, rfl⟩
  | cons a rest ih =>
    intro s t h hq
    obtain ⟨u, hu, hr⟩ := runFrom_cons h
    obtain ⟨h1, h2⟩ := quiet_step hu hq
    obtain ⟨h3, h4⟩ := ih hr (by rw [h2]; exact hq)
    exact ⟨by rw [h3, h1], by rw [h4, h2]⟩

theorem inProgress_exited {s : State W I O} (hq : ∀ pc ∈ s.workers, pc = WorkerPC.exited) :
    s.inProgress = 0 := by
  unfold State.inProgress
  rw [List.countP_eq_zero]
  intro pc hpc
  rw [hq pc hpc]
  simp [WorkerPC.isRunning]

theorem returned_torn_down {p : Pool W I O} {inputs : List I}
    {Q : I → O × Option GoError → Prop} {s : State W I O} (hi : Inv p inputs Q s)
    (hret : s.main.isReturned = true) :
    s.resultsClosed = true ∧ s.disp = DispPC.exited ∧ s.jobsClosed = true ∧
      ∀ pc ∈ s.workers, pc = WorkerPC.exited := by
  have hrc := hi.returned_closed hret
  have hd := hi.results_closed.1 hrc
  exact ⟨hrc, hd, hi.jobs_closed.2 (Or.inr (Or.inr hd)), hi.joined_all (Or.inr hd)⟩

/-- C12. Full teardown before return: in every state of every execution of
`Run`, `results` is closed only when every worker has returned, and `Run` has
returned only when `results` is closed; every execution can be continued until
`Run` returns; and once `Run` has returned, with an error or not, all the
`max(1, Workers)` workers have returned, `jobs` and `results` are closed, the
dispatcher is past `close(results)`, no call of the work function is in progress,
and in whatever follows no call of the work function is made and the workers
stay returned. -/
theorem Run_teardown [Inhabited O] (p : Pool W I O) (w0 : W) (inputs : List I)
    (sched : List Action) (s : State W I O) (hrun : p.Run w0 inputs sched = some s) :
    (s.resultsClosed = true → ∀ pc ∈ s.workers, pc = WorkerPC.exited) ∧
    (s.main.isReturned = true → s.resultsClosed = true) ∧
    Completes p inputs s ∧
    (s.main.isReturned = true →
      s.workers.length = p.workerCount ∧ (∀ pc ∈ s.workers, pc = WorkerPC.exited) ∧
      s.jobsClosed = true ∧ s.resultsClosed = true ∧ s.disp = DispPC.exited ∧
      s.inProgress = 0 ∧
      ∀ rest t, p.runFrom inputs s rest = some t →
        t.calls = s.calls ∧ t.inProgress = 0 ∧ ∀ pc ∈ t.workers, pc = WorkerPC.exited) := by
  have hi : Inv p inputs (fun _ _ => True) s :=
    inv_reachable (fun _ _ => trivial) ⟨sched, hrun⟩
  refine ⟨fun hrc => hi.joined_all (Or.inr (hi.results_closed.1 hrc)), hi.returned_closed,
    completes hrun, ?_⟩
  intro hret
  obtain ⟨hrc, hd, hjc, hq⟩ := returned_torn_down hi hret
  refine ⟨hi.workers_len, hq, hjc, hrc, hd, inProgress_exited hq, ?_⟩
  intro rest t hrest
  obtain ⟨h1, h2⟩ := quiet_runFrom rest hrest hq
  have hqt : ∀ pc ∈ t.workers, pc = WorkerPC.exited := by rw [h2]; exact hq
  exact ⟨h1, inProgress_exited hqt, hqt⟩

/-- Witness of C12: the failing run of ok, empty, ok with 2 workers, at its return. -/
theorem Run_teardown_witness :
    (2 : Nat) = (scenario.failPool 2).workerCount ∧ true = true ∧ true = true ∧
    DispPC.exited = DispPC.exited ∧ (0 : Nat) = 0 :=
  have h := (Run_teardown (scenario.failPool 2) () ["ok", "", "ok"] scenario.schedFailFast
    _ rfl).2.2.2 rfl
  ⟨h.1, h.2.2.1, h.2.2.2.1, h.2.2.2.2.1, h.2.2.2.2.2.1⟩

/-- C13. Deadlock freedom: every execution of `Run` takes at most `stepBound`
steps; in every state it reaches before `Run` has returned some goroutine can
take a step, and once `Run` has returned the dispatcher and every worker have
returned, so no execution leaves a goroutine blocked; from every state it can be
continued, without a cancellation of the caller's context, until `Run` has
returned. A worker at its select can publish its
outcome, or take the cancellation branch, or the collector is running its loop
body, after which the worker can publish. A dispatcher at its select can hand
the job to a worker, or take the cancellation branch, or no cancellation has
fired and every worker is busy with a job. -/
theorem Run_deadlock_free [Inhabited O] (p : Pool W I O) (w0 : W) (inputs : List I)
    (sched : List Action) (s : State W I O) (hrun : p.Run w0 inputs sched = some s) :
    sched.length ≤ p.stepBound inputs ∧
    (s.main.isReturned = false → CanStep p inputs s) ∧
    (s.main.isReturned = true →
      s.disp = DispPC.exited ∧ ∀ pc ∈ s.workers, pc = WorkerPC.exited) ∧
    (∃ rest t, p.runFrom inputs s rest = some t ∧ t.main.isReturned = true ∧
      t.parentErr = s.parentErr ∧ t.disp = DispPC.exited ∧
      ∀ pc ∈ t.workers, pc = WorkerPC.exited) ∧
    (∀ w r, s.workers[w]? = some (WorkerPC.selecting r) →
      (p.step inputs s (Action.send w)).isSome = true ∨
      (p.step inputs s (Action.abort w)).isSome = true ∨
      ∃ t, p.step inputs s Action.handle = some t ∧
        (p.step inputs t (Action.send w)).isSome = true) ∧
    (∀ i, s.disp = DispPC.feeding i → i < inputs.length →
      (∃ w, (p.step inputs s (Action.recv w)).isSome = true) ∨
      (p.step inputs s Action.dispDone).isSome = true ∨
      (s.ctxErr = none ∧ ∀ pc ∈ s.workers, pc.idx?.isSome = true)) := by
  have hi : Inv p inputs (fun _ _ => True) s :=
    inv_reachable (fun _ _ => trivial) ⟨sched, hrun⟩
  refine ⟨run_bound hrun, can_step hrun, ?_, ?_, ?_, ?_⟩
  · intro hret
    obtain ⟨_, hd, _, hq⟩ := returned_torn_down hi hret
    exact ⟨hd, hq⟩
  · obtain ⟨rest, t, hrest, hret, hpar⟩ := completes hrun
    have hit : Inv p inputs (fun _ _ => True) t := inv_runFrom (fun _ _ => trivial) rest hi hrest
    obtain ⟨_, hd, _, hq⟩ := returned_torn_down hit hret
    exact ⟨rest, t, hrest, hret, hpar, hd, hq⟩
  · intro w r hw
    have hmem := List.getElem?_mem hw
    have hrc : s.resultsClosed = false := by
      cases h0 : s.resultsClosed with
      | false => rfl
      | true =>
        have := hi.joined_all (Or.inr (hi.results_closed.1 h0)) _ hmem
        cases this
    cases hm : s.main with
    | ranging =>
      left
      simp [step, hw, hm, hrc]
    | returned o e =>
      have := hi.returned_closed (by rw [hm]; rfl)
      rw [hrc] at this
      cases this
    | handling r1 =>
      right; right
      by_cases hc : (r1.err.isSome && s.firstErr.isNone) = true
      · exact ⟨_, by simp only [step, hm, hc]; rfl, by simp [step, hw, hrc]⟩
      · exact ⟨_, by simp only [step, hm, hc]; rfl, by simp [step, hw, hrc]⟩
  · intro i hd hil
    have hjc : s.jobsClosed = false := by
      cases h0 : s.jobsClosed with
      | false => rfl
      | true =>
        have := hi.jobs_closed.1 h0
        rw [hd] at this
        simp at this
    cases hc : s.ctxErr with
    | some e =>
      right; left
      simp [step, hd, hc, hil]
    | none =>
      by_cases hr : WorkerPC.ranging ∈ s.workers
      · left
        obtain ⟨w, hw⟩ := get_of_mem hr
        exact ⟨w, by simp [step, hw, hjc, hd, List.getElem?_eq_getElem hil]⟩
      · right; right
        refine ⟨rfl, ?_⟩
        intro pc hpc
        cases pc with
        | ranging => exact absurd hpc hr
        | exited =>
          rcases hi.exited_why hpc with h0 | h0
          · rw [hjc] at h0
            cases h0
          · exact absurd hc h0
        | holding j => rfl
        | running j => rfl
        | selecting r => rfl

/-- Witness of C13: ok, b with 2 workers; the first outcome is with the collector
while the second worker is at its select. -/
theorem Run_deadlock_free_witness :
    [Action.recv 0, Action.recv 1, Action.call 0, Action.call 1, Action.ret 0, Action.ret 1,
      Action.send 0].length ≤ (scenario.failPool 2).stepBound ["ok", "b"] :=
  (Run_deadlock_free (scenario.failPool 2) () ["ok", "b"]
    [Action.recv 0, Action.recv 1, Action.call 0, Action.call 1, Action.ret 0, Action.ret 1,
      Action.send 0] _ rfl).1

end Pool
end worker
namespace worker
namespace Pool
variable {W I O : Type}

theorem issued_same {p : Pool W I O} {inputs : List I} {s t : State W I O} {a : Action}
    (h : p.step inputs s a = some t) (hr : ∀ w, a ≠ Action.recv w) (k : Nat) :
    t.issued k = s.issued k := by
  cases a with
  | recv w => exact absurd rfl (hr w)
  | call w =>
    obtain ⟨j, hw, rfl⟩ := step_call h
    have := sum_map_set (WorkerPC.holds k) (WorkerPC.running j) hw
    have e1 : (WorkerPC.running j : WorkerPC I O).holds k = 0 := rfl
    have e2 : (WorkerPC.holding j : WorkerPC I O).holds k = if j.idx = k then 1 else 0 := rfl
    rw [e1, e2] at this
    have hcount : ((s.calls ++ [j]).map (fun j => j.idx)).count k =
        (s.calls.map (fun j => j.idx)).count k + if j.idx = k then 1 else 0 := by
      rw [List.map_append, List.count_append]
      by_cases hjk : j.idx = k <;> simp [List.count_cons, hjk]
    simp only [State.issued]
    rw [hcount]
    omega
  | ret w =>
    obtain ⟨j, hw, rfl⟩ := step_ret h
    have := sum_map_set (WorkerPC.holds k) (WorkerPC.selecting
      ⟨j.idx, (p.Work s.world j.inp).1.1, (p.Work s.world j.inp).1.2⟩) hw
    have e1 : (WorkerPC.running j : WorkerPC I O).holds k = 0 := rfl
    have e2 : (WorkerPC.selecting ⟨j.idx, (p.Work s.world j.inp).1.1,
      (p.Work s.world j.inp).1.2⟩ : WorkerPC I O).holds k = 0 := rfl
    rw [e1, e2] at this
    simp only [State.issued]
    omega
  | send w =>
    obtain ⟨r, hw, _, _, rfl⟩ := step_send h
    have := sum_map_set (WorkerPC.holds k) WorkerPC.ranging hw
    have e1 : (WorkerPC.selecting r : WorkerPC I O).holds k = 0 := rfl
    have e2 : (WorkerPC.ranging : WorkerPC I O).holds k = 0 := rfl
    rw [e1, e2] at this
    simp only [State.issued]
    omega
  | abort w =>
    obtain ⟨r, e, hw, _, rfl⟩ := step_abort h
    have := sum_map_set (WorkerPC.holds k) WorkerPC.exited hw
    have e1 : (WorkerPC.selecting r : WorkerPC I O).holds k = 0 := rfl
    have e2 : (WorkerPC.exited : WorkerPC I O).holds k = 0 := rfl
    rw [e1, e2] at this
    simp only [State.issued]
    omega
  | leave w =>
    obtain ⟨hw, _, rfl⟩ := step_leave h
    have := sum_map_set (WorkerPC.holds k) WorkerPC.exited hw
    have e1 : (WorkerPC.ranging : WorkerPC I O).holds k = 0 := rfl
    have e2 : (WorkerPC.exited : WorkerPC I O).holds k = 0 := rfl
    rw [e1, e2] at this
    simp only [State.issued]
    omega
  | dispDone => obtain ⟨i, e, _, _, _, rfl⟩ := step_dispDone h; rfl
  | closeJobs => obtain ⟨_, rfl⟩ := step_closeJobs h; rfl
  | join => obtain ⟨_, _, rfl⟩ := step_join h; rfl
  | closeResults => obtain ⟨_, rfl⟩ := step_closeResults h; rfl
  | handle =>
    obtain ⟨r, _, hcase⟩ := step_handle h
    rcases hcase with ⟨_, _, rfl⟩ | ⟨_, rfl⟩ <;> rfl
  | finish =>
    obtain ⟨_, _, hcase⟩ := step_finish h
    rcases hcase with ⟨e, _, rfl⟩ | ⟨e, _, _, rfl⟩ | ⟨_, _, rfl⟩ <;> rfl
  | parentCancel e => obtain ⟨_, rfl⟩ := step_parentCancel h; rfl

theorem callInv_same {inputs : List I} {s t : State W I O} (hd : t.disp = s.disp)
    (hiss : ∀ k, t.issued k = s.issued k) (hf : t.firstErr = none → s.firstErr = none)
    (hp : t.parentErr = none → s.parentErr = none) (hc : CallInv inputs s) :
    CallInv inputs t := by
  refine ⟨fun k => by rw [hiss]; exact hc.at_most k, ?_, ?_, ?_⟩
  · intro i k hi hk
    rw [hiss]
    exact hc.below i k (by rw [← hd]; exact hi) hk
  · intro i k hi hk
    rw [hiss]
    exact hc.above i k (by rw [← hd]; exact hi) hk
  · intro h1 h2 h3 k hk
    rw [hiss]
    exact hc.all (hf h1) (hp h2) (fun i hi => h3 i (by rw [hd]; exact hi)) k hk

theorem callInv_left {inputs : List I} {s t : State W I O}
    (hd : ∀ i, t.disp ≠ DispPC.feeding i) (hiss : ∀ k, t.issued k = s.issued k)
    (hall : t.firstErr = none → t.parentErr = none → ∀ k, k < inputs.length → s.issued k = 1)
    (hc : CallInv inputs s) : CallInv inputs t := by
  refine ⟨fun k => by rw [hiss]; exact hc.at_most k, ?_, ?_, ?_⟩
  · intro i k hi
    exact absurd hi (hd i)
  · intro i k hi
    exact absurd hi (hd i)
  · intro h1 h2 _ k hk
    rw [hiss]
    exact hall h1 h2 k hk

theorem call_step {p : Pool W I O} {inputs : List I} {Q : I → O × Option GoError → Prop}
    {s t : State W I O} {a : Action} (hi : Inv p inputs Q s) (hc : CallInv inputs s)
    (h : p.step inputs s a = some t) : CallInv inputs t := by
  have hcancelled : s.ctxErr ≠ none → s.disp ≠ DispPC.exited → s.firstErr = none →
      s.parentErr = none → False := by
    intro hce hde hf hp
    have hnr : s.main.isReturned = false := by
      cases hr : s.main.isReturned with
      | false => rfl
      | true => exact absurd (hi.results_closed.1 (hi.returned_closed hr)) hde
    rw [hi.ctx_parent hnr hf] at hce
    exact hce hp
  cases a with
  | recv w =>
    obtain ⟨i, x, hd, hw, hj, hx, rfl⟩ := step_recv h
    have hiss : ∀ k, State.issued
        { s with workers := s.workers.set w (WorkerPC.holding ⟨i, x⟩),
                 disp := DispPC.feeding (i + 1) } k =
        s.issued k + if i = k then 1 else 0 := by
      intro k
      have := sum_map_set (WorkerPC.holds k) (WorkerPC.holding ⟨i, x⟩) hw
      have e1 : (WorkerPC.ranging : WorkerPC I O).holds k = 0 := rfl
      have e2 : (WorkerPC.holding ⟨i, x⟩ : WorkerPC I O).holds k = if i = k then 1 else 0 := rfl
      rw [e1, e2] at this
      simp only [State.issued]
      omega
    refine ⟨?_, ?_, ?_, ?_⟩
    · intro k
      rw [hiss]
      by_cases hik : i = k
      · rw [if_pos hik, hc.above i k hd (by omega)]
      · rw [if_neg hik]
        exact hc.at_most k
    · intro i1 k hi1 hk
      cases hi1
      rw [hiss]
      by_cases hik : i = k
      · rw [if_pos hik, hc.above i k hd (by omega)]
      · rw [if_neg hik, hc.below i k hd (by omega)]
    · intro i1 k hi1 hk
      cases hi1
      rw [hiss, if_neg (by omega), hc.above i k hd (by omega)]
    · intro _ _ h3
      exact absurd rfl (h3 (i + 1))
  | call w =>
    have hiss := issued_same h (by simp)
    obtain ⟨j, _, rfl⟩ := step_call h
    exact callInv_same (s := s) rfl hiss id id hc
  | ret w =>
    have hiss := issued_same h (by simp)
    obtain ⟨j, _, rfl⟩ := step_ret h
    exact callInv_same (s := s) rfl hiss id id hc
  | send w =>
    have hiss := issued_same h (by simp)
    obtain ⟨r, _, _, _, rfl⟩ := step_send h
    exact callInv_same (s := s) rfl hiss id id hc
  | abort w =>
    have hiss := issued_same h (by simp)
    obtain ⟨r, e, _, _, rfl⟩ := step_abort h
    exact callInv_same (s := s) rfl hiss id id hc
  | leave w =>
    have hiss := issued_same h (by simp)
    obtain ⟨_, _, rfl⟩ := step_leave h
    exact callInv_same (s := s) rfl hiss id id hc
  | dispDone =>
    have hiss := issued_same h (by simp)
    obtain ⟨i, e, hd, hce, hil, rfl⟩ := step_dispDone h
    refine callInv_left (s := s) (by simp) hiss ?_ hc
    intro hf hp
    exact (hcancelled (by simp [hce]) (by simp [hd]) hf hp).elim
  | closeJobs =>
    have hiss := issued_same h (by simp)
    obtain ⟨hd, rfl⟩ := step_closeJobs h
    refine callInv_left (s := s) (by simp) hiss ?_ hc
    intro hf hp k hk
    rcases hd with ⟨i, hd, hle⟩ | hd
    · exact hc.below i k hd (by omega)
    · exact (hcancelled (hi.closing_why hd) (by simp [hd]) hf hp).elim
  | join =>
    have hiss := issued_same h (by simp)
    obtain ⟨hd, _, rfl⟩ := step_join h
    refine callInv_left (s := s) (by simp) hiss ?_ hc
    intro hf hp k hk
    exact hc.all hf hp (by simp [hd]) k hk
  | closeResults =>
    have hiss := issued_same h (by simp)
    obtain ⟨hd, rfl⟩ := step_closeResults h
    refine callInv_left (s := s) (by simp) hiss ?_ hc
    intro hf hp k hk
    exact hc.all hf hp (by simp [hd]) k hk
  | handle =>
    have hiss := issued_same h (by simp)
    obtain ⟨r, _, hcase⟩ := step_handle h
    rcases hcase with ⟨hre, hfe, rfl⟩ | ⟨_, rfl⟩
    · exact callInv_same (s := s) rfl hiss (fun h0 => absurd h0 hre) id hc
    · exact callInv_same (s := s) rfl hiss id id hc
  | finish =>
    have hiss := issued_same h (by simp)
    obtain ⟨_, _, hcase⟩ := step_finish h
    rcases hcase with ⟨e, _, rfl⟩ | ⟨e, _, _, rfl⟩ | ⟨_, _, rfl⟩ <;>
      exact callInv_same (s := s) rfl hiss id id hc
  | parentCancel e =>
    have hiss := issued_same h (by simp)
    obtain ⟨_, rfl⟩ := step_parentCancel h
    exact callInv_same (s := s) rfl hiss id (fun h0 => by cases h0) hc

theorem call_init [Inhabited O] (p : Pool W I O) (w0 : W) (inputs : List I) :
    CallInv inputs (p.init w0 inputs) := by
  have h0 : ∀ k, (p.init w0 inputs).issued k = 0 := by
    intro k
    simp only [State.issued, init, List.map_nil, List.count_nil, List.map_replicate,
      List.sum_replicate]
    simp [WorkerPC.holds]
  refine ⟨fun k => by rw [h0]; omega, ?_, fun i k _ _ => h0 k, ?_⟩
  · intro i k hi hk
    simp only [init] at hi
    cases hi
    omega
  · intro _ _ h3
    exact absurd rfl (h3 0)

theorem call_runFrom {p : Pool W I O} {inputs : List I} (sched : List Action) :
    ∀ {s t : State W I O}, Inv p inputs (fun _ _ => True) s → CallInv inputs s →
      p.runFrom inputs s sched = some t → CallInv inputs t := by
  induction sched with
  | nil =>
    intro s t _ hc h
    simp [runFrom] at h
    subst h
    exact hc
  | cons a sched ih =>
    intro s t hi hc h
    obtain ⟨u, hu, hr⟩ := runFrom_cons h
    exact ih (inv_step (fun _ _ => trivial) hi hu) (call_step hi hc hu) hr

theorem count_le_issued (s : State W I O) (k : Nat) :
    (s.calls.map (fun j => j.idx)).count k ≤ s.issued k := by
  unfold State.issued
  omega

theorem issued_exited {s : State W I O} (hq : ∀ pc ∈ s.workers, pc = WorkerPC.exited) (k : Nat) :
    s.issued k = (s.calls.map (fun j => j.idx)).count k := by
  have : (s.workers.map (WorkerPC.holds k)).sum = 0 := by
    apply List.sum_eq_zero
    intro n hn
    obtain ⟨pc, hpc, rfl⟩ := List.mem_map.1 hn
    rw [hq pc hpc]
    rfl
  unfold State.issued
  omega

theorem firstError_none {log : List (result O)} (h : ∀ r ∈ log, r.err = none) :
    firstError log = none := by
  cases hf : firstError log with
  | none => rfl
  | some e =>
    obtain ⟨r, hr, he⟩ := firstError_mem hf
    rw [h r hr] at he
    cases he

/-- C11. At most once per input: in every state of every execution of `Run`, for
every index the work function has been called at most once on the job of that
index, and every call was on a job of the input sequence, its value the input at
its index; and once `Run` has returned with no outcome the collector received
carrying an error and the caller's context not cancelled, the work function has
been called exactly once on every index of the input sequence. -/
theorem Run_at_most_once [Inhabited O] (p : Pool W I O) (w0 : W) (inputs : List I)
    (sched : List Action) (s : State W I O) (hrun : p.Run w0 inputs sched = some s) :
    (∀ k, (s.calls.map (fun j => j.idx)).count k ≤ 1) ∧
    (∀ j ∈ s.calls, inputs[j.idx]? = some j.inp ∧ j.inp ∈ inputs) ∧
    (s.main.isReturned = true → (∀ r ∈ s.received, r.err = none) → s.parentErr = none →
      ∀ k, k < inputs.length → (s.calls.map (fun j => j.idx)).count k = 1) := by
  have hi : Inv p inputs (fun _ _ => True) s :=
    inv_reachable (fun _ _ => trivial) ⟨sched, hrun⟩
  have hc : CallInv inputs s :=
    call_runFrom sched (inv_init p w0 inputs _) (call_init p w0 inputs) hrun
  refine ⟨fun k => Nat.le_trans (count_le_issued s k) (hc.at_most k), ?_, ?_⟩
  · intro j hj
    exact ⟨hi.calls_ok j hj, List.getElem?_mem (hi.calls_ok j hj)⟩
  · intro hret hnone hpar k hk
    obtain ⟨_, hd, _, hq⟩ := returned_torn_down hi hret
    have hf : s.firstErr = none := by rw [hi.first_log]; exact firstError_none hnone
    rw [← issued_exited hq k]
    exact hc.all hf hpar (by simp [hd]) k hk

/-- Witness of C11: the upper-case run of a, b, c with 2 workers, at its return. -/
theorem Run_at_most_once_witness :
    [1, 0, 2].count 0 = 1 ∧ [1, 0, 2].count 1 = 1 ∧ [1, 0, 2].count 2 = 1 :=
  have h := (Run_at_most_once scenario.upperPool () ["a", "b", "c"] scenario.schedUpper
    scenario.finalUpper (by decide)).2.2 rfl (by decide) rfl
  ⟨h 0 (by decide), h 1 (by decide), h 2 (by decide)⟩

end Pool
end worker
